import Mathlib

/-!
Verification of the REDCap Multi-Lingual-Migration core against its
natural-language specification.  The Python sources
`extract_em_translations.py` and `prepare_translations.py` are shallowly
embedded: strings are `List Char` with Python slice/find semantics made
explicit, JSON values are the inductive `PV`, Python `dict`s are
insertion-ordered association lists, and code that can raise an uncaught
exception returns `Option`/a failure flag.  `json.loads(..., strict=False)`
is an external library call and is modelled as an explicit `parse`
parameter.
-/

/-- Python strings, as explicit character lists. -/
abbrev Str := List Char

/-- Coerce a Lean string literal to the character-list representation. -/
def str (s : String) : Str := s.data

/-- Normalise a Python slice bound: negative indices count from the end,
and the result is clamped to `[0, n]`. -/
def pyNorm (n : Nat) (i : Int) : Nat :=
  (max 0 (min (if i < 0 then i + n else i) (n : Int))).toNat

/-- Python slice `s[a:b]`. -/
def pySlice (s : Str) (a b : Int) : Str :=
  (s.take (pyNorm s.length b)).drop (pyNorm s.length a)

/-- Python slice `s[a:]`. -/
def pySliceFrom (s : Str) (a : Int) : Str :=
  s.drop (pyNorm s.length a)

/-- Boolean prefix test on character lists. -/
def isPre : Str → Str → Bool
  | [], _ => true
  | _ :: _, [] => false
  | a :: p, b :: s => a = b && isPre p s

/-- Index of the first occurrence of `pat` in `s`, if any
(Python `str.find` without the `-1` encoding). -/
def subFind (pat : Str) : Str → Option Nat
  | [] => if pat = [] then some 0 else none
  | c :: rest =>
    if isPre pat (c :: rest) then some 0
    else (subFind pat rest).map (· + 1)

/-- Index of the last occurrence of `pat` in `s`, if any
(Python `str.rfind` without the `-1` encoding). -/
def subFindLast (pat : Str) : Str → Option Nat
  | [] => if pat = [] then some 0 else none
  | c :: rest =>
    match subFindLast pat rest with
    | some i => some (i + 1)
    | none => if isPre pat (c :: rest) then some 0 else none

/-- Python `str.find`: `-1` when the pattern does not occur. -/
def pyFind (pat s : Str) : Int :=
  ((subFind pat s).map (Nat.cast : Nat → Int)).getD (-1)

/-- Python `str.rfind`: `-1` when the pattern does not occur. -/
def pyRFind (pat s : Str) : Int :=
  ((subFindLast pat s).map (Nat.cast : Nat → Int)).getD (-1)

/-- Python `pat in s` substring containment. -/
def containsSub (pat s : Str) : Bool :=
  (subFind pat s).isSome

/-- Occurrence of `pat` in `s` at index `i` (specification-side notion used
to characterise `pyFind`/`pyRFind`). -/
def occursAt (pat s : Str) (i : Nat) : Prop :=
  isPre pat (s.drop i) = true

instance (pat s : Str) (i : Nat) : Decidable (occursAt pat s i) := by
  unfold occursAt; infer_instance

/-- Values a Python JSON tree can hold (`json.loads` output, and the
MLM template document).  Dicts are insertion-ordered association lists;
real Python dicts have unique keys. -/
inductive PV where
  | s : Str → PV
  | int : Int → PV
  | bool : Bool → PV
  | null : PV
  | list : List PV → PV
  | dict : List (Str × PV) → PV

/-- Python `d[k]` on a dict: first binding of `k` (bindings are unique in
any dict Python can build). -/
def dGet {α : Type} : List (Str × α) → Str → Option α
  | [], _ => none
  | (k', v) :: rest, k => if k' = k then some v else dGet rest k

/-- Python `d[k] = v`: update the existing binding in place, else append. -/
def dSet {α : Type} : List (Str × α) → Str → α → List (Str × α)
  | [], k, v => [(k, v)]
  | (k', v') :: rest, k, v =>
    if k' = k then (k', v) :: rest else (k', v') :: dSet rest k v

/-- Digits of a natural number, used by `pyStr` for `str(int)`. -/
def natStr (n : Nat) : Str := Nat.toDigits 10 n

mutual

/-- Python `str()` of a value, as used in
`str(multiple_choice_answers_list[answer_index]['id'])`.  Choice ids are
strings or numbers in MLM documents; containers get a `repr`-like
rendering (string quoting inside containers is simplified to bare `'`
wrapping, which no claim exercises). -/
def pyStr : PV → Str
  | .s t => t
  | .int (.ofNat n) => natStr n
  | .int (.negSucc n) => '-' :: natStr (n + 1)
  | .bool true => str "True"
  | .bool false => str "False"
  | .null => str "None"
  | .list l => '[' :: List.intercalate (str ", ") (pyStrL l) ++ str "]"
  | .dict m => '\x7b' :: List.intercalate (str ", ") (pyStrD m) ++ str "\x7d"

/-- `repr()` of each list element (strings quote-wrapped). -/
def pyStrL : List PV → List Str
  | [] => []
  | .s t :: r => ('\x27' :: t ++ str "\x27") :: pyStrL r
  | v :: r => pyStr v :: pyStrL r

/-- `repr()` of each dict entry. -/
def pyStrD : List (Str × PV) → List Str
  | [] => []
  | (k, .s t) :: r =>
    ('\x27' :: k ++ str "\x27: " ++ ('\x27' :: t ++ str "\x27")) :: pyStrD r
  | (k, v) :: r => ('\x27' :: k ++ str "\x27: " ++ pyStr v) :: pyStrD r

end

mutual

/-- Size of a JSON value; any string parsed to `v` by a real JSON parser
has at least `jsize v` characters. -/
def jsize : PV → Nat
  | .s _ => 1
  | .int _ => 1
  | .bool _ => 1
  | .null => 1
  | .list l => 1 + jsizeL l
  | .dict m => 1 + jsizeD m

def jsizeL : List PV → Nat
  | [] => 0
  | v :: r => jsize v + jsizeL r

def jsizeD : List (Str × PV) → Nat
  | [] => 0
  | (_, v) :: r => 1 + jsize v + jsizeD r

end

/-- `annot[annot.find("p1000"):annot.find("{")]` — the marker text that
names the sub-kind. -/
def annotSeg (annot : Str) : Str :=
  pySlice annot (pyFind (str "p1000") annot) (pyFind (str "\x7b") annot)

/-- Lines 85-88: the key cell of the (non-multiple-choice) output row. -/
def rowKey (name annot : Str) : Str :=
  if containsSub (str "p1000lang") (annotSeg annot)
      || containsSub (str "p1000surveytext") (annotSeg annot) then name
  else name ++ '_' :: annotSeg annot

/-- `annot.find("{")` (line 82). -/
def startData (annot : Str) : Int := pyFind (str "\x7b") annot

/-- `annot[start_of_data:].find("@p1000")` (line 91). -/
def nextRel (annot : Str) : Int :=
  pyFind (str "@p1000") (pySliceFrom annot (startData annot))

/-- Lines 92-95: where the current marker's payload ends. -/
def endData (annot : Str) : Int :=
  if nextRel annot > 0 then nextRel annot + startData annot
  else pyRFind (str "\x7d") annot + 1

/-- Line 98: the substring handed to `json.loads`. -/
def toParse (annot : Str) : Str := pySlice annot (startData annot) (endData annot)

/-- Line 140-141: the remaining substring the recursive call processes. -/
def nextAnnot (annot : Str) : Str :=
  pySliceFrom annot (nextRel annot + startData annot)

/-- Lines 104-108: one value cell per requested language; a missing key is
the caught `KeyError` (empty cell), a non-dict payload is an uncaught
`TypeError` (`none`) as soon as one language is looked up. -/
def rowCells (tdict : PV) : List (Str × Str) → Option (List PV)
  | [] => some []
  | (_, native) :: rest =>
    match tdict with
    | .dict m => (rowCells tdict rest).map (((dGet m native).getD (.s [])) :: ·)
    | _ => none

/-- Line 114: `all(type(translation_dict[languages_dict[lang]]) == dict ...)`.
The generator short-circuits at the first non-dict value; a missing key
raises an uncaught `KeyError` (`none`), as does indexing a non-dict. -/
def allValuesDicts (tdict : PV) : List (Str × Str) → Option Bool
  | [] => some true
  | (_, native) :: rest =>
    match tdict with
    | .dict m =>
      match dGet m native with
      | none => none
      | some (.dict _) => allValuesDicts tdict rest
      | some _ => some false
    | _ => none

/-- Lines 71-73: `result[answer_choice][lang] = t[lang][answer_choice]`,
creating the inner dict when `answer_choice` is new. -/
def tinsert (acc : List (Str × List (Str × PV))) (choice lang : Str) (v : PV) :
    List (Str × List (Str × PV)) :=
  match acc with
  | [] => [(choice, dSet [] lang v)]
  | (c, m) :: rest =>
    if c = choice then (c, dSet m lang v) :: rest
    else (c, m) :: tinsert rest choice lang v

/-- Inner loop of `transform_multi_choice_translations` for one top-level
entry `(lang, inner)`: iterate the inner dict's entries in order. -/
def tinsertAll (acc : List (Str × List (Str × PV))) (lang : Str)
    (inner : List (Str × PV)) : List (Str × List (Str × PV)) :=
  inner.foldl (fun a p => tinsert a p.1 lang p.2) acc

/-- Loop of `transform_multi_choice_translations` over the top-level
entries.  Iterating a non-empty string or any non-iterable raises
(`none`); an empty string iterates zero times. -/
def transformLoop (acc : List (Str × List (Str × PV))) :
    List (Str × PV) → Option (List (Str × List (Str × PV)))
  | [] => some acc
  | (lang, v) :: rest =>
    match v with
    | .dict inner => transformLoop (tinsertAll acc lang inner) rest
    | .s [] => transformLoop acc rest
    | _ => none

/-- `transform_multi_choice_translations` (lines 47-74): transposes
`{a: {b: text}}` to `{b: {a: text}}`.  In `write_translation_row` it is
fed a payload keyed by native language name and returns a dict keyed by
answer choice. -/
def transform_multi_choice_translations (t : PV) : Option (List (Str × List (Str × PV))) :=
  match t with
  | .dict entries => transformLoop [] entries
  | .s [] => some []
  | _ => none

/-- Processing of the first marker of `annot` (lines 80-136): the rows
written for it, or `none` when the Python raises before recursing. -/
def firstRows (parse : Str → Option PV) (name annot : Str)
    (langs : List (Str × Str)) : Option (List (Str × List PV)) :=
  match parse (toParse annot) with
  | none => none
  | some tdict =>
    match rowCells tdict langs with
    | none => none
    | some cells =>
      if containsSub (str "p1000answers") (annotSeg annot) then
        match allValuesDicts tdict langs with
        | none => none
        | some false => some []
        | some true =>
          match transform_multi_choice_translations tdict with
          | none => none
          | some ad => some (ad.map fun ci =>
              (name ++ str "[value=" ++ ci.1 ++ str "]",
               langs.map fun p => (dGet ci.2 p.2).getD (.s [])))
      else some [(rowKey name annot, cells)]

/-! Support lemmas for the termination of the recursive extractor. -/

theorem isPre_length {pat s : Str} (h : isPre pat s = true) : pat.length ≤ s.length := by
  induction pat generalizing s with
  | nil => simp
  | cons a p ih =>
    cases s with
    | nil => simp [isPre] at h
    | cons b t =>
      simp only [isPre, Bool.and_eq_true, decide_eq_true_eq] at h
      simpa using ih h.2

theorem subFind_isPre {pat s : Str} {i : Nat} (h : subFind pat s = some i) :
    isPre pat (s.drop i) = true := by
  induction s generalizing i with
  | nil =>
    by_cases hp : pat = ([] : Str) <;> simp_all [subFind, isPre]
  | cons c rest ih =>
    rw [subFind] at h
    by_cases hpre : isPre pat (c :: rest) = true
    · simp only [hpre, if_true, Option.some.injEq] at h
      subst h; simpa using hpre
    · simp only [hpre] at h
      simp only [Bool.not_eq_true] at hpre
      simp only [hpre, Bool.false_eq_true, if_false, Option.map_eq_some'] at h
      obtain ⟨j, hj, rfl⟩ := h
      simpa using ih hj

theorem subFind_add_le {pat s : Str} {i : Nat} (h : subFind pat s = some i)
    (hp : pat ≠ []) : i + pat.length ≤ s.length := by
  have h1 := isPre_length (subFind_isPre h)
  rw [List.length_drop] at h1
  rcases Nat.lt_or_ge i s.length with h2 | h2
  · omega
  · have : s.length - i = 0 := by omega
    rw [this, Nat.le_zero, List.length_eq_zero] at h1
    exact absurd h1 hp

theorem pyNorm_le (n : Nat) (i : Int) : pyNorm n i ≤ n := by
  unfold pyNorm; omega

theorem length_pySliceFrom (s : Str) (a : Int) :
    (pySliceFrom s a).length = s.length - pyNorm s.length a := by
  simp [pySliceFrom]

/-- Line 139-141: when another `@p1000` marker follows the payload start,
the substring handed to the recursive call is strictly shorter than the
current one. -/
theorem nextAnnot_lt (annot : Str) (h : 0 < nextRel annot) :
    (nextAnnot annot).length < annot.length := by
  rcases hf : subFind (str "@p1000") (pySliceFrom annot (startData annot)) with _ | m
  · exfalso; unfold nextRel pyFind at h; rw [hf] at h; exact absurd h (by decide)
  have hnr : nextRel annot = (m : Int) := by unfold nextRel pyFind; rw [hf]; rfl
  rw [hnr] at h
  have hm : 0 < m := by exact_mod_cast h
  have hb := subFind_add_le hf (by decide)
  rw [length_pySliceFrom] at hb
  have hpatlen : (str "@p1000").length = 6 := by decide
  rw [hpatlen] at hb
  -- the payload start `annot.find("{")` must itself be a real index
  rcases hg : subFind (str "\x7b") annot with _ | j
  · exfalso
    have hsd : startData annot = -1 := by unfold startData pyFind; rw [hg]; rfl
    rw [hsd] at hb
    have : pyNorm annot.length (-1) ≥ annot.length - 1 := by unfold pyNorm; omega
    omega
  have hsd : startData annot = (j : Int) := by unfold startData pyFind; rw [hg]; rfl
  have hjb := subFind_add_le hg (by decide)
  have hjlen : (str "\x7b").length = 1 := by decide
  rw [hjlen] at hjb
  rw [hsd] at hb
  have hnj : pyNorm annot.length (j : Int) = j := by unfold pyNorm; omega
  rw [hnj] at hb
  unfold nextAnnot
  rw [hnr, hsd, length_pySliceFrom]
  have : pyNorm annot.length ((m : Int) + (j : Int)) = m + j := by unfold pyNorm; omega
  omega

/-- `write_translation_row` (lines 76-143): parses the first marker's
payload, writes its row(s), and recurses on the rest of the annotation
when a further `@p1000` marker exists.  Returns the rows written in
order; the flag is `false` when Python would die with an uncaught
exception (rows written before the exception are kept). -/
def write_translation_row (parse : Str → Option PV) (name annot : Str)
    (langs : List (Str × Str)) : List (Str × List PV) × Bool :=
  match firstRows parse name annot langs with
  | none => ([], false)
  | some rows =>
    if h : 0 < nextRel annot then
      let r := write_translation_row parse name (nextAnnot annot) langs
      (rows ++ r.1, r.2)
    else (rows, true)
termination_by annot.length
decreasing_by exact nextAnnot_lt annot h

/-- One processed CSV line (`TranslatedField`).  The `translated` flag is
diagnostic only. -/
structure TranslatedField where
  field_name : Str
  translations : List (Str × Str)
  translated : Bool
  is_incomplete : Bool

/-- `TranslatedField.__init__` (lines 12-26): zip the CSV cells with the
header languages (truncating at the shorter), record emptiness. -/
def TranslatedField.init (field : Str) (csv_row : List Str)
    (language_order_key : List Str) : TranslatedField :=
  { field_name := field
    translations := (language_order_key.zip csv_row).foldl (fun m p => dSet m p.1 p.2) []
    translated := false
    is_incomplete := (language_order_key.zip csv_row).any (fun p => p.2 = ([] : Str)) }

/-- One step of Python `str.replace` scanning with explicit fuel
(`fuel ≥ s.length` reproduces `str.replace` exactly; matches are
non-overlapping, scanned left to right). -/
def strReplaceAux (pat rep : Str) : Nat → Str → Str
  | _, [] => []
  | 0, s => s
  | fuel + 1, c :: rest =>
    if pat ≠ [] ∧ isPre pat (c :: rest) = true then
      rep ++ strReplaceAux pat rep fuel ((c :: rest).drop pat.length)
    else c :: strReplaceAux pat rep fuel rest

/-- Python `s.replace(pat, rep)` for non-empty `pat`. -/
def strReplace (s pat rep : Str) : Str := strReplaceAux pat rep s.length s

/-- Python's default `str.strip` whitespace set (ASCII part). -/
def pySpace (c : Char) : Bool :=
  c = ' ' || c = '\t' || c = '\n' || c = '\x0b' || c = '\x0c' || c = '\x0d'

/-- Python `s.strip()`. -/
def pyStrip (s : Str) : Str :=
  ((s.dropWhile pySpace).reverse.dropWhile pySpace).reverse

/-- `TranslatedField.get_translation` (lines 31-54): resolve `l` directly
or through the `available_languages` alias dict, replace the legacy
`___` placeholder by `@`, optionally fold `"` to `'`, and trim.  `none`
is an uncaught `KeyError` from either dict lookup.  The `translated`
flag mutation is irrelevant to every output and is not modelled. -/
def TranslatedField.get_translation (tf : TranslatedField) (l : Str)
    (available_languages : List (Str × Str)) (replace_quotes : Bool) : Option Str :=
  let t? : Option Str :=
    if (dGet tf.translations l).isSome then dGet tf.translations l
    else
      match dGet available_languages l with
      | none => none
      | some l2 => dGet tf.translations l2
  t?.map fun t0 =>
    let t1 := strReplace t0 (str "___") (str "@")
    let t2 := if replace_quotes then strReplace t1 (str "\x22") (str "\x27") else t1
    pyStrip t2

/-- Loop of `load_csv` over the non-header rows (lines 70-84), carrying
the dict built so far and the printed per-skipped-row counts of empty
cells.  `none` is the uncaught `IndexError` of `row[0]` on an empty row
whose length matches an empty header. -/
def loadLoop (expected : Nat) (langs : List Str)
    (acc : List (Str × TranslatedField)) (diags : List Nat) :
    List (List Str) → Option (List (Str × TranslatedField) × List Nat)
  | [] => some (acc, diags)
  | row :: rest =>
    if row.length = expected then
      match row with
      | [] => none
      | k :: cells => loadLoop expected langs (dSet acc k (TranslatedField.init k cells langs)) diags rest
    else
      loadLoop expected langs acc (diags ++ [(row.filter (· = ([] : Str))).length]) rest

/-- `load_csv` (lines 59-86) over the already-tokenised CSV rows (the
`csv.reader` collaborator).  The first row is the header; its length is
the expected row length and its tail the language order. -/
def load_csv (rows : List (List Str)) : Option (List (Str × TranslatedField) × List Nat) :=
  match rows with
  | [] => some ([], [])
  | header :: rest => loadLoop header.length (header.drop 1) [] [] rest

/-- Python `key in v` for a `PV`: dict key membership, substring test on
a string, element membership on a list (`'id' == elem` is only true for
an equal string), and an uncaught `TypeError` on non-iterables. -/
def pyContainsKey (v : PV) (k : Str) : Option Bool :=
  match v with
  | .dict d => some (dGet d k).isSome
  | .s t => some (containsSub k t)
  | .list l => some (l.any fun x => match x with | .s t => t = k | _ => false)
  | _ => none

/-- Lines 153-158, one `enum` entry: read `answer['translation']`
unconditionally (uncaught `KeyError`/`TypeError` when absent or not a
dict), and when it is the empty string fill it from the
`id + "[value=" + str(answer['id']) + "]"` table entry if present. -/
def applyChoice (translations : List (Str × TranslatedField)) (fname : Str)
    (desired_language : Str) (available_languages : List (Str × Str))
    (replace_quotes : Bool) (a : PV) : Option (PV × Nat) :=
  match a with
  | .dict ch =>
    match dGet ch (str "translation") with
    | none => none
    | some tv =>
      match tv with
      | .s [] =>
        match dGet ch (str "id") with
        | none => none
        | some idv =>
          let csv_entry := fname ++ str "[value=" ++ pyStr idv ++ str "]"
          match dGet translations csv_entry with
          | none => some (a, 0)
          | some tf =>
            (tf.get_translation desired_language available_languages replace_quotes).map
              fun t => (.dict (dSet ch (str "translation") (.s t)), 1)
      | _ => some (a, 0)
  | _ => none

/-- The `for answer_index in range(...)` loop of lines 153-158. -/
def applyChoices (translations : List (Str × TranslatedField)) (fname : Str)
    (desired_language : Str) (available_languages : List (Str × Str))
    (replace_quotes : Bool) : List PV → Option (List PV × Nat)
  | [] => some ([], 0)
  | a :: rest =>
    match applyChoice translations fname desired_language available_languages replace_quotes a with
    | none => none
    | some (a', n) =>
      (applyChoices translations fname desired_language available_languages replace_quotes rest).map
        fun r => (a' :: r.1, n + r.2)

/-- Lines 135-146: the `if`/`elif` chain filling the direct `translation`
slot, else the nested `label.translation` slot; only a slot holding the
empty string is written.  `none` is an uncaught `KeyError` inside
`get_translation`. -/
def applyDirectLabel (tf : TranslatedField) (desired_language : Str)
    (available_languages : List (Str × Str)) (replace_quotes : Bool)
    (d : List (Str × PV)) : Option (List (Str × PV) × Nat) :=
  match dGet d (str "translation") with
  | some (.s []) =>
    (tf.get_translation desired_language available_languages replace_quotes).map
      fun t => (dSet d (str "translation") (.s t), 1)
  | _ =>
    match dGet d (str "label") with
    | some (.dict lb) =>
      match dGet lb (str "translation") with
      | some (.s []) =>
        (tf.get_translation desired_language available_languages replace_quotes).map
          fun t => (dSet d (str "label") (.dict (dSet lb (str "translation") (.s t))), 1)
      | _ => some (d, 0)
    | _ => some (d, 0)

/-- Lines 148-158: when an `enum` list exists, run the choice loop on it
and store the rebuilt list. -/
def applyEnum (translations : List (Str × TranslatedField)) (fname : Str)
    (desired_language : Str) (available_languages : List (Str × Str))
    (replace_quotes : Bool) (d : List (Str × PV)) : Option (List (Str × PV) × Nat) :=
  match dGet d (str "enum") with
  | some (.list ans) =>
    match applyChoices translations fname desired_language available_languages replace_quotes ans with
    | none => none
    | some (ans', n) => some (dSet d (str "enum") (.list ans'), n)
  | _ => some (d, 0)

/-- Lines 160-168: when `note` exists and contains a `translation` that
is the empty string, fill it from the `field_name + "_p1000notes"` table
entry if present.  The `in` test on a non-iterable `note` value, or
indexing a non-dict `note` after a successful `in`, raises (`none`). -/
def applyNote (translations : List (Str × TranslatedField)) (fname : Str)
    (desired_language : Str) (available_languages : List (Str × Str))
    (replace_quotes : Bool) (d : List (Str × PV)) : Option (List (Str × PV) × Nat) :=
  match dGet d (str "note") with
  | none => some (d, 0)
  | some nv =>
    match pyContainsKey nv (str "translation") with
    | none => none
    | some false => some (d, 0)
    | some true =>
      match nv with
      | .dict nb =>
        match dGet nb (str "translation") with
        | some (.s []) =>
          let csv_entry := fname ++ str "_p1000notes"
          match dGet translations csv_entry with
          | none => some (d, 0)
          | some tf =>
            (tf.get_translation desired_language available_languages replace_quotes).map
              fun t => (dSet d (str "note") (.dict (dSet nb (str "translation") (.s t))), 1)
        | _ => some (d, 0)
      | _ => none

/-- Lines 132-174 for a single record of a category list: Python's
`'id' in this_redcap_field` / `this_redcap_field['id']`, the
translation-table membership test (an unhashable `id` raises), then the
three independent slot-filling blocks.  Fields without an `id`, or whose
`id` has no table entry, are skipped unchanged (only logged). -/
def applyField (translations : List (Str × TranslatedField))
    (desired_language : Str) (available_languages : List (Str × Str))
    (replace_quotes : Bool) (fld : PV) : Option (PV × Nat) :=
  match fld with
  | .dict d =>
    match dGet d (str "id") with
    | none => some (fld, 0)
    | some idv =>
      match idv with
      | .s fname =>
        match dGet translations fname with
        | none => some (fld, 0)
        | some tf =>
          match applyDirectLabel tf desired_language available_languages replace_quotes d with
          | none => none
          | some (d1, n1) =>
            match applyEnum translations fname desired_language available_languages replace_quotes d1 with
            | none => none
            | some (d2, n2) =>
              match applyNote translations fname desired_language available_languages replace_quotes d2 with
              | none => none
              | some (d3, n3) => some (.dict d3, n1 + n2 + n3)
      | .dict _ => none
      | .list _ => none
      | _ => some (fld, 0)
  | .list l => if l.any (fun x => match x with | .s t => t = str "id" | _ => false) then none else some (fld, 0)
  | .s t => if containsSub (str "id") t then none else some (fld, 0)
  | _ => none

/-- The `for text_string_index in range(...)` loop over one category's
field list (lines 109-174). -/
def applyCat (translations : List (Str × TranslatedField))
    (desired_language : Str) (available_languages : List (Str × Str))
    (replace_quotes : Bool) : List PV → Option (List PV × Nat)
  | [] => some ([], 0)
  | f :: rest =>
    match applyField translations desired_language available_languages replace_quotes f with
    | none => none
    | some (f', n) =>
      (applyCat translations desired_language available_languages replace_quotes rest).map
        fun r => (f' :: r.1, n + r.2)

/-- `apply_translations` (lines 94-177): walk the document's categories
in order, process every category holding a non-empty list, and return
the rebuilt document with the total count of slots filled.  `none` is an
uncaught exception (nothing is written in that case). -/
def apply_translations (translations : List (Str × TranslatedField))
    (original_json : List (Str × PV)) (desired_language : Str)
    (available_languages : List (Str × Str)) (replace_quotes : Bool) :
    Option (List (Str × PV) × Nat) :=
  match original_json with
  | [] => some ([], 0)
  | (category, v) :: rest =>
    match v with
    | .list l =>
      if 0 < l.length then
        match applyCat translations desired_language available_languages replace_quotes l with
        | none => none
        | some (l', n) =>
          (apply_translations translations rest desired_language available_languages replace_quotes).map
            fun r => ((category, .list l') :: r.1, n + r.2)
      else
        (apply_translations translations rest desired_language available_languages replace_quotes).map
          fun r => ((category, v) :: r.1, r.2)
    | _ =>
      (apply_translations translations rest desired_language available_languages replace_quotes).map
        fun r => ((category, v) :: r.1, r.2)

/-- The direct string `translation` slot of a field node, if any. -/
def directSlot (f : PV) : Option Str :=
  match f with
  | .dict d => match dGet d (str "translation") with | some (.s t) => some t | _ => none
  | _ => none

/-- The nested `label.translation` string slot of a field node, if any. -/
def labelSlot (f : PV) : Option Str :=
  match f with
  | .dict d =>
    match dGet d (str "label") with
    | some (.dict lb) => match dGet lb (str "translation") with | some (.s t) => some t | _ => none
    | _ => none
  | _ => none

/-- The nested `note.translation` string slot of a field node, if any. -/
def noteSlot (f : PV) : Option Str :=
  match f with
  | .dict d =>
    match dGet d (str "note") with
    | some (.dict nb) => match dGet nb (str "translation") with | some (.s t) => some t | _ => none
    | _ => none
  | _ => none

/-- The string `translation` slot of the `i`-th `enum` choice of a field
node, if any. -/
def enumSlot (f : PV) (i : Nat) : Option Str :=
  match f with
  | .dict d =>
    match dGet d (str "enum") with
    | some (.list ans) =>
      match ans.get? i with
      | some (.dict ch) => match dGet ch (str "translation") with | some (.s t) => some t | _ => none
      | _ => none
    | _ => none
  | _ => none

/-- A slot already holding a non-empty string holds the same string
afterwards. -/
def NonEmptyPreserved (x x' : PV) : Prop :=
  (∀ t, t ≠ [] → directSlot x = some t → directSlot x' = some t) ∧
  (∀ t, t ≠ [] → labelSlot x = some t → labelSlot x' = some t) ∧
  (∀ t, t ≠ [] → noteSlot x = some t → noteSlot x' = some t) ∧
  (∀ i t, t ≠ [] → enumSlot x i = some t → enumSlot x' i = some t)

/-- The field list of a category value (`[]` when it is not a list). -/
def fieldsOf (v : PV) : List PV :=
  match v with
  | .list l => l
  | _ => []

/-- A one-row table for the field `f`. -/
def tblF : List (Str × TranslatedField) :=
  [(str "f", TranslatedField.init (str "f") [str "Hola"] [str "English"])]

/-- A document whose single field has an `enum` choice without a
`translation` key. -/
def docNoTransKey : List (Str × PV) :=
  [(str "c", .list [.dict [(str "id", .s (str "f")),
    (str "enum", .list [.dict [(str "id", .int 0)]])]])]

/-- The same document with the `translation` key present (and empty). -/
def docWithTransKey : List (Str × PV) :=
  [(str "c", .list [.dict [(str "id", .s (str "f")),
    (str "enum", .list [.dict [(str "id", .int 0), (str "translation", .s [])]])]])]

/-- A table row whose stored English text is `He said \"hi\"` (with
literal backslashes, as the spec's quote-folding example stores it). -/
def tfQuote : TranslatedField :=
  TranslatedField.init (str "fq") [str "He said \\\x22hi\\\x22"] [str "English"]

/-- A table holding only the choice key `f[value=0]`, not `f` itself. -/
def tblChoiceOnly : List (Str × TranslatedField) :=
  [(str "f[value=0]", TranslatedField.init (str "f[value=0]") [str "No"] [str "English"])]

/-- A document with one field `f` carrying an `enum` choice (id `0`)
whose translation slot is empty. -/
def docEnumOnly : List (Str × PV) :=
  [(str "c", .list [.dict [(str "id", .s (str "f")),
    (str "enum", .list [.dict [(str "id", .int 0), (str "translation", .s [])]])]])]

/-- A field carrying both an empty direct `translation` slot and an
empty `label.translation` slot. -/
def fldBoth : PV :=
  .dict [(str "id", .s (str "f")), (str "translation", .s []),
    (str "label", .dict [(str "translation", .s [])])]

/-- `fldBoth` after the first filler run: the direct slot is filled, the
`elif` skipped the label slot. -/
def fldBoth1 : PV :=
  .dict [(str "id", .s (str "f")), (str "translation", .s (str "Hola")),
    (str "label", .dict [(str "translation", .s [])])]

/-- `fldBoth1` after the second filler run: the direct slot is no longer
empty, so the `elif` now fills the label slot. -/
def fldBoth2 : PV :=
  .dict [(str "id", .s (str "f")), (str "translation", .s (str "Hola")),
    (str "label", .dict [(str "translation", .s (str "Hola"))])]

/-- The annotation of the C5 counterexample: a brace-delimited chunk of
text precedes the first (and only) marker. -/
def annotC5 : Str := str "x\x7by\x7d@p1000lang\x7b\x22E\x22: \x22h\x22\x7d"

/-- The top-level keys of an inner payload dict (empty for non-dicts). -/
def innerKeysOf : PV → List Str
  | .dict m => m.map Prod.fst
  | _ => []

/-- Accumulate a key, keeping first-appearance order. -/
def insKey (acc : List Str) (c : Str) : List Str :=
  if c ∈ acc then acc else acc ++ [c]

/-- The answer-choice keys of a payload keyed by language: all inner keys
in first-appearance order — the keys the transposed dict ends up with. -/
def choiceList (t : List (Str × PV)) : List Str :=
  (t.flatMap fun p => innerKeysOf p.2).foldl insKey []

/-- `payload[lang][c]` read off the untransposed payload. -/
def lookupT (t : List (Str × PV)) (lang c : Str) : Option PV :=
  match dGet t lang with
  | some (.dict m) => dGet m c
  | _ => none

/-- `transposed[c][lang]` on the transposed dict. -/
def lookup2 (res : List (Str × List (Str × PV))) (c lang : Str) : Option PV :=
  match dGet res c with
  | some m => dGet m lang
  | none => none

/-- The C1 counterexample annotation: an answers marker whose payload is
keyed by choice (`{"0": {"English": "No"}}`), as the claim asserts. -/
def annotC1 : Str := str "@p1000answers\x7b\x220\x22: \x7b\x22English\x22: \x22No\x22\x7d\x7d"

/-- The relaxed-JSON parse collaborator for the C1 counterexample. -/
def parseC1 : Str → Option PV := fun s =>
  if s = str "\x7b\x220\x22: \x7b\x22English\x22: \x22No\x22\x7d\x7d"
  then some (.dict [(str "0", .dict [(str "English", .s (str "No"))])]) else none

/-- The language-keyed payload of the C1 witness. -/
def tC1w : List (Str × PV) :=
  [(str "English", PV.dict [(str "0", PV.s (str "No")), (str "1", PV.s (str "Yes"))])]

/-- The C1 witness annotation and its parse collaborator. -/
def annotC1w : Str :=
  str "@p1000answers\x7b\x22English\x22: \x7b\x220\x22: \x22No\x22, \x221\x22: \x22Yes\x22\x7d\x7d"

def parseC1w : Str → Option PV := fun s =>
  if s = str "\x7b\x22English\x22: \x7b\x220\x22: \x22No\x22, \x221\x22: \x22Yes\x22\x7d\x7d"
  then some (.dict tC1w) else none

/-- The string translation slot of one `enum` choice node. -/
def choiceTrans (a : PV) : Option Str :=
  match a with
  | .dict ch => match dGet ch (str "translation") with | some (.s t) => some t | _ => none
  | _ => none

/-- The C3 witness: the `f` table row. -/
def tfC3f : TranslatedField :=
  TranslatedField.init (str "f") [str "Hola"] [str "English"]

/-- The C3 witness: the `f[value=0]` table row, English text `Sí`. -/
def tfC3 : TranslatedField :=
  TranslatedField.init (str "f[value=0]") [str "Sí"] [str "English"]

/-- The C3 witness table: entries for both the field `f` itself and the
choice key `f[value=0]`. -/
def tblC3 : List (Str × TranslatedField) :=
  [(str "f", tfC3f), (str "f[value=0]", tfC3)]

/-- The C3 witness: one `enum` choice (id `0`) with an empty translation
slot. -/
def chC3 : List (Str × PV) :=
  [(str "id", PV.s (str "0")), (str "translation", PV.s [])]

/-- The C3 witness field: direct slot already non-empty (`X`), one empty
choice. -/
def fldC3 : List (Str × PV) :=
  [(str "id", PV.s (str "f")), (str "translation", PV.s (str "X")),
   (str "enum", PV.list [PV.dict chC3])]

/-- `fldC3` after the filler: only the choice slot was filled. -/
def fldC3f : List (Str × PV) :=
  [(str "id", PV.s (str "f")), (str "translation", PV.s (str "X")),
   (str "enum", PV.list [PV.dict [(str "id", PV.s (str "0")),
     (str "translation", PV.s (str "Sí"))]])]

/-- The C3 witness document: a single category holding the single field. -/
def docC3 : List (Str × PV) := [(str "c", PV.list [PV.dict fldC3])]

/-- `docC3` after the filler run. -/
def docC3f : List (Str × PV) := [(str "c", PV.list [PV.dict fldC3f])]

/-! ## Theorems: the claims C1-C10 and their supporting lemmas. -/

/-- C10: the filler reads each `enum` choice's `translation` key before
testing it for emptiness, so a document containing a choice entry
without that key makes the run fail with an unhandled missing-key error
(`none`), while the same document with the key present is processed
(the choice is simply left alone when its `[value=...]` table key is
absent). -/
theorem c10_missing_choice_key :
    apply_translations tblF docNoTransKey (str "English") [] false = none ∧
    apply_translations tblF docWithTransKey (str "English") [] false =
      some (docWithTransKey, 0) := by
  constructor <;> rfl

/-- C8 counterexample: with folding enabled, lookup of the stored text
`He said \"hi\"` returns `He said \'hi\'` — only the `"` characters are
replaced by `'`, the preceding backslashes are kept — and not the
`He said 'hi'` the claim asserts. -/
theorem c8_counter :
    tfQuote.get_translation (str "English") [] true =
      some (str "He said \\\x27hi\\\x27") ∧
    str "He said \\\x27hi\\\x27" ≠ str "He said \x27hi\x27" := by
  constructor
  · rfl
  · decide

/-- C8 (amended): lookup returns the stored text with every `___`
replaced by `@`, then — exactly when quote-folding is requested — every
`"` character replaced by `'` (a preceding backslash is untouched), and
finally leading/trailing whitespace trimmed; without folding the quotes
are preserved verbatim. -/
theorem c8_get_translation (tf : TranslatedField) (l : Str)
    (avail : List (Str × Str)) (rq : Bool) (t : Str)
    (h : dGet tf.translations l = some t) :
    tf.get_translation l avail rq =
      some (pyStrip (if rq then
          strReplace (strReplace t (str "___") (str "@")) (str "\x22") (str "\x27")
        else strReplace t (str "___") (str "@"))) := by
  unfold TranslatedField.get_translation
  rw [h]
  simp

/-- C8 witness: the amended statement at the placeholder example —
stored `contact___example.com` comes back as `contact@example.com`. -/
theorem c8_witness :
    (TranslatedField.init (str "fe") [str "contact___example.com"] [str "English"]).get_translation
        (str "English") [] false =
      some (pyStrip (if false then
          strReplace (strReplace (str "contact___example.com") (str "___") (str "@"))
            (str "\x22") (str "\x27")
        else strReplace (str "contact___example.com") (str "___") (str "@"))) ∧
    pyStrip (strReplace (str "contact___example.com") (str "___") (str "@")) =
      str "contact@example.com" := by
  constructor
  · exact c8_get_translation _ _ _ _ _ (by rfl)
  · rfl

/-- C3 counterexample: the table key `f[value=0]` is present, the choice
slot is empty, yet the filler leaves the document unchanged (zero slots
filled), because the `enum` block is nested under the
`field_name in translations` guard and `f` has no table entry. -/
theorem c3_counter :
    apply_translations tblChoiceOnly docEnumOnly (str "English") [] false =
      some (docEnumOnly, 0) ∧
    (dGet tblChoiceOnly (str "f[value=0]")).isSome = true ∧
    enumSlot (.dict [(str "id", .s (str "f")),
      (str "enum", .list [.dict [(str "id", .int 0), (str "translation", .s [])]])]) 0 =
      some [] := by
  refine ⟨rfl, rfl, rfl⟩

/-- C4 counterexample: the second run on the document produced by the
first run is not a no-op — filling the direct slot in run one unblocks
the `elif` chain, and run two fills the previously skipped label slot
(the label slot changes from empty to `Hola`). -/
theorem c4_counter :
    apply_translations tblF [(str "c", .list [fldBoth])] (str "English") [] false =
      some ([(str "c", .list [fldBoth1])], 1) ∧
    apply_translations tblF [(str "c", .list [fldBoth1])] (str "English") [] false =
      some ([(str "c", .list [fldBoth2])], 1) ∧
    labelSlot fldBoth1 = some [] ∧
    labelSlot fldBoth2 = some (str "Hola") ∧
    (some ([] : Str) ≠ some (str "Hola")) := by
  refine ⟨rfl, rfl, rfl, rfl, by decide⟩

/-- C7 counterexample: on the tabular input whose header row is empty
and which contains one further empty row (a CSV file of two blank
lines), the build crashes on `row[0]` (`none`) instead of adding an
entry for that row, whose column count does equal the header's. -/
theorem c7_counter :
    load_csv [[], []] = none ∧ (List.length ([] : List Str) = List.length ([] : List Str)) := by
  exact ⟨rfl, rfl⟩

theorem dGet_dSet_eq {α : Type} (m : List (Str × α)) (k : Str) (v : α) :
    dGet (dSet m k v) k = some v := by
  induction m with
  | nil => simp [dGet, dSet]
  | cons p rest ih =>
    obtain ⟨k', v'⟩ := p
    by_cases hk : k' = k
    · subst hk; simp [dGet, dSet]
    · simp [dGet, dSet, hk, ih]

theorem dGet_dSet_ne {α : Type} (m : List (Str × α)) (k k' : Str) (v : α)
    (h : k' ≠ k) : dGet (dSet m k v) k' = dGet m k' := by
  have h' : ¬ (k = k') := fun hh => h hh.symm
  induction m with
  | nil => simp [dGet, dSet, h']
  | cons p rest ih =>
    obtain ⟨k0, v0⟩ := p
    by_cases hk : k0 = k
    · subst hk; simp [dGet, dSet, h']
    · by_cases hk0 : k0 = k'
      · simp [dGet, dSet, hk, hk0, h]
      · simp [dGet, dSet, hk, hk0, ih]

theorem dGet_dSet_isSome {α : Type} (m : List (Str × α)) (k k' : Str) (v : α) :
    (dGet (dSet m k' v) k).isSome ↔ (k = k' ∨ (dGet m k).isSome) := by
  by_cases h : k = k'
  · subst h; simp [dGet_dSet_eq]
  · rw [dGet_dSet_ne m k' k v h]
    simp [h]

theorem loadLoop_spec (expected : Nat) (langs : List Str) (he : 0 < expected) :
    ∀ (rows : List (List Str)) (acc : List (Str × TranslatedField)) (diags : List Nat),
      ∃ tbl ds, loadLoop expected langs acc diags rows = some (tbl, ds) ∧
        ds = diags ++ (rows.filter (fun r => ¬ r.length = expected)).map
          (fun r => (r.filter (· = ([] : Str))).length) ∧
        ∀ k, (dGet tbl k).isSome ↔
          ((dGet acc k).isSome ∨ ∃ r ∈ rows, r.length = expected ∧ r.head? = some k) := by
  intro rows
  induction rows with
  | nil =>
    intro acc diags
    refine ⟨acc, diags, rfl, by simp, ?_⟩
    simp
  | cons row rest ih =>
    intro acc diags
    by_cases hlen : row.length = expected
    · cases row with
      | nil => simp at hlen; omega
      | cons k0 cells =>
        obtain ⟨tbl, ds, h1, h2, h3⟩ :=
          ih (dSet acc k0 (TranslatedField.init k0 cells langs)) diags
        refine ⟨tbl, ds, ?_, ?_, ?_⟩
        · simp only [loadLoop, if_pos hlen]; exact h1
        · rw [h2]
          simp [hlen]
        · intro k
          rw [h3 k, dGet_dSet_isSome]
          constructor
          · rintro ((hk | hacc) | ⟨r, hr, h4, h5⟩)
            · exact Or.inr ⟨k0 :: cells, by simp, hlen, by simp [hk]⟩
            · exact Or.inl hacc
            · exact Or.inr ⟨r, by simp [hr], h4, h5⟩
          · rintro (hacc | ⟨r, hr, h4, h5⟩)
            · exact Or.inl (Or.inr hacc)
            · rcases List.mem_cons.mp hr with rfl | hr'
              · simp only [List.head?] at h5
                exact Or.inl (Or.inl (by cases h5; rfl))
              · exact Or.inr ⟨r, hr', h4, h5⟩
    · obtain ⟨tbl, ds, h1, h2, h3⟩ :=
        ih acc (diags ++ [(row.filter (· = ([] : Str))).length])
      refine ⟨tbl, ds, ?_, ?_, ?_⟩
      · simp only [loadLoop, if_neg hlen]; exact h1
      · rw [h2]
        simp [hlen]
      · intro k
        rw [h3 k]
        constructor
        · rintro (hacc | ⟨r, hr, h4, h5⟩)
          · exact Or.inl hacc
          · exact Or.inr ⟨r, by simp [hr], h4, h5⟩
        · rintro (hacc | ⟨r, hr, h4, h5⟩)
          · exact Or.inl hacc
          · rcases List.mem_cons.mp hr with rfl | hr'
            · exact absurd h4 hlen
            · exact Or.inr ⟨r, hr', h4, h5⟩

/-- C7 (amended): for every tabular input whose header row is non-empty,
the build succeeds (it never aborts on a malformed row); the table has
an entry exactly for the keys of the non-header rows whose column count
equals the header's; every mismatched row is skipped individually,
contributing its count of empty cells to the diagnostics in order. -/
theorem c7_load_csv (header : List Str) (rows : List (List Str)) (hh : header ≠ []) :
    ∃ tbl ds, load_csv (header :: rows) = some (tbl, ds) ∧
      ds = (rows.filter (fun r => ¬ r.length = header.length)).map
        (fun r => (r.filter (· = ([] : Str))).length) ∧
      ∀ k, (dGet tbl k).isSome ↔
        ∃ r ∈ rows, r.length = header.length ∧ r.head? = some k := by
  obtain ⟨tbl, ds, h1, h2, h3⟩ :=
    loadLoop_spec header.length (header.drop 1) (by cases header <;> simp_all) rows [] []
  refine ⟨tbl, ds, h1, by simpa using h2, ?_⟩
  intro k
  rw [h3 k]
  simp [dGet]

/-- C7 witness: a mismatched row between two good rows is skipped with
its empty-cell count, the others are loaded. -/
theorem c7_witness :
    ∃ tbl ds,
      load_csv [[str "Field", str "English"], [str "f1", str "Hola"], [str "bad"],
        [str "f2", str "Adiós"]] = some (tbl, ds) ∧
      ds = ([[str "f1", str "Hola"], [str "bad"], [str "f2", str "Adiós"]].filter
        (fun r => ¬ r.length = [str "Field", str "English"].length)).map
          (fun r => (r.filter (· = ([] : Str))).length) ∧
      ∀ k, (dGet tbl k).isSome ↔
        ∃ r ∈ [[str "f1", str "Hola"], [str "bad"], [str "f2", str "Adiós"]],
          r.length = [str "Field", str "English"].length ∧ r.head? = some k :=
  c7_load_csv [str "Field", str "English"]
    [[str "f1", str "Hola"], [str "bad"], [str "f2", str "Adiós"]] (by decide)

theorem rowCells_dict (t : List (Str × PV)) (langs : List (Str × Str)) :
    rowCells (.dict t) langs =
      some (langs.map fun p => (dGet t p.2).getD (.s [])) := by
  induction langs with
  | nil => rfl
  | cons p rest ih =>
    obtain ⟨e, native⟩ := p
    simp [rowCells, ih]

/-- C6: when the first marker's sub-kind is not the multiple-choice
answers kind and its payload parses to a dict, the extractor emits
exactly one row for it; the value cell for each requested language, in
caller-supplied order, is the payload's entry under that language's
human-readable (native) name, or the empty string when that name is
absent. -/
theorem c6_single_row (parse : Str → Option PV) (name annot : Str)
    (langs : List (Str × Str)) (t : List (Str × PV))
    (hans : containsSub (str "p1000answers") (annotSeg annot) = false)
    (hparse : parse (toParse annot) = some (.dict t))
    (hnext : nextRel annot ≤ 0) :
    write_translation_row parse name annot langs =
      ([(rowKey name annot, langs.map fun p => (dGet t p.2).getD (.s []))], true) := by
  unfold write_translation_row firstRows
  rw [hparse]
  simp only [rowCells_dict, hans, Bool.false_eq_true, if_false]
  rw [dif_neg (by omega)]

/-- C6 witness: one `p1000lang` marker, two requested languages, the
second missing from the payload. -/
theorem c6_witness :
    write_translation_row
      (fun s => if s = str "\x7b\x22English\x22: \x22Hi\x22\x7d"
        then some (.dict [(str "English", .s (str "Hi"))]) else none)
      (str "f") (str "@p1000lang\x7b\x22English\x22: \x22Hi\x22\x7d")
      [(str "English", str "English"), (str "Spanish", str "Español")] =
      ([(rowKey (str "f") (str "@p1000lang\x7b\x22English\x22: \x22Hi\x22\x7d"),
        [(str "English", str "English"), (str "Spanish", str "Español")].map
          fun p => (dGet [(str "English", PV.s (str "Hi"))] p.2).getD (.s []))], true) :=
  c6_single_row _ _ _ _ _ (by decide) (by rfl) (by decide)

theorem jsize_pos (v : PV) : 1 ≤ jsize v := by
  cases v <;> simp [jsize]

theorem length_le_jsizeD (m : List (Str × PV)) : m.length ≤ jsizeD m := by
  induction m with
  | nil => simp [jsizeD]
  | cons p rest ih =>
    obtain ⟨k, v⟩ := p
    have := jsize_pos v
    simp only [jsizeD, List.length_cons]
    omega

theorem tinsert_length (acc : List (Str × List (Str × PV))) (c lang : Str) (v : PV) :
    (tinsert acc c lang v).length ≤ acc.length + 1 := by
  induction acc with
  | nil => simp [tinsert]
  | cons p rest ih =>
    obtain ⟨c0, m⟩ := p
    by_cases h : c0 = c
    · simp [tinsert, h]
    · simp only [tinsert, h, if_false, List.length_cons]
      omega

theorem tinsertAll_length (lang : Str) (inner : List (Str × PV)) :
    ∀ acc, (tinsertAll acc lang inner).length ≤ acc.length + inner.length := by
  induction inner with
  | nil => intro acc; simp [tinsertAll]
  | cons p rest ih =>
    intro acc
    have h1 := ih (tinsert acc p.1 lang p.2)
    have h2 := tinsert_length acc p.1 lang p.2
    simp only [tinsertAll, List.foldl_cons] at h1 ⊢
    simp only [List.length_cons]
    omega

theorem transformLoop_length :
    ∀ (entries : List (Str × PV)) (acc : List (Str × List (Str × PV))) ad,
      transformLoop acc entries = some ad → ad.length ≤ acc.length + jsizeD entries := by
  intro entries
  induction entries with
  | nil =>
    intro acc ad h
    unfold transformLoop at h
    cases h
    simp [jsizeD]
  | cons p rest ih =>
    intro acc ad h
    obtain ⟨lang, v⟩ := p
    unfold transformLoop at h
    cases v with
    | dict inner =>
      have h1 := ih (tinsertAll acc lang inner) ad h
      have h2 := tinsertAll_length lang inner acc
      have h3 := length_le_jsizeD inner
      simp only [jsizeD, jsize]
      omega
    | s t =>
      cases t with
      | nil =>
        have h1 := ih acc ad h
        simp only [jsizeD, jsize]
        omega
      | cons c cs => exact absurd h (by simp)
    | int i => exact absurd h (by simp)
    | bool b => exact absurd h (by simp)
    | null => exact absurd h (by simp)
    | list l => exact absurd h (by simp)

theorem transform_length_le (tdict : PV) (ad : List (Str × List (Str × PV)))
    (h : transform_multi_choice_translations tdict = some ad) :
    ad.length ≤ jsize tdict := by
  unfold transform_multi_choice_translations at h
  cases tdict with
  | dict entries =>
    have h2 := transformLoop_length entries [] ad h
    simp only [List.length_nil] at h2
    simp only [jsize]
    omega
  | s t =>
    cases t with
    | nil => cases h; simp
    | cons c cs => exact absurd h (by simp)
  | int i => exact absurd h (by simp)
  | bool b => exact absurd h (by simp)
  | null => exact absurd h (by simp)
  | list l => exact absurd h (by simp)

theorem firstRows_bound {parse : Str → Option PV}
    (hP : ∀ s v, parse s = some v → jsize v ≤ s.length)
    {name annot : Str} {langs : List (Str × Str)} {rows : List (Str × List PV)}
    (h : firstRows parse name annot langs = some rows) :
    rows.length ≤ (toParse annot).length := by
  unfold firstRows at h
  cases hp : parse (toParse annot) with
  | none => rw [hp] at h; exact absurd h (by simp)
  | some tdict =>
    rw [hp] at h
    have hts := hP _ _ hp
    have hpos := jsize_pos tdict
    simp only [] at h
    split at h
    · exact absurd h (by simp)
    next cells hcells =>
      split at h
      · split at h
        · exact absurd h (by simp)
        · cases h; simp
        next hall =>
          split at h
          · exact absurd h (by simp)
          next ad htr =>
            cases h
            have := transform_length_le tdict ad htr
            simp only [List.length_map]
            omega
      · cases h
        simp only [List.length_singleton]
        omega

theorem length_pySlice_le (s : Str) (a b : Int) : (pySlice s a b).length ≤ s.length := by
  simp only [pySlice, List.length_drop, List.length_take]
  omega

theorem next_facts (annot : Str) (h : 0 < nextRel annot) :
    ∃ m j : Nat, 0 < m ∧ nextRel annot = (m : Int) ∧ startData annot = (j : Int) ∧
      m + j + 6 ≤ annot.length := by
  rcases hf : subFind (str "@p1000") (pySliceFrom annot (startData annot)) with _ | m
  · exfalso; unfold nextRel pyFind at h; rw [hf] at h; exact absurd h (by decide)
  have hnr : nextRel annot = (m : Int) := by unfold nextRel pyFind; rw [hf]; rfl
  rw [hnr] at h
  have hm : 0 < m := by exact_mod_cast h
  have hb := subFind_add_le hf (by decide)
  rw [length_pySliceFrom] at hb
  have hpatlen : (str "@p1000").length = 6 := by decide
  rw [hpatlen] at hb
  rcases hg : subFind (str "\x7b") annot with _ | j
  · exfalso
    have hsd : startData annot = -1 := by unfold startData pyFind; rw [hg]; rfl
    rw [hsd] at hb
    have : pyNorm annot.length (-1) ≥ annot.length - 1 := by unfold pyNorm; omega
    omega
  have hsd : startData annot = (j : Int) := by unfold startData pyFind; rw [hg]; rfl
  have hjb := subFind_add_le hg (by decide)
  have hjlen : (str "\x7b").length = 1 := by decide
  rw [hjlen] at hjb
  rw [hsd] at hb
  have hnj : pyNorm annot.length (j : Int) = j := by unfold pyNorm; omega
  rw [hnj] at hb
  exact ⟨m, j, hm, hnr, hsd, by omega⟩

theorem split_bound (annot : Str) (h : 0 < nextRel annot) :
    (toParse annot).length + (nextAnnot annot).length ≤ annot.length := by
  obtain ⟨m, j, hm, hnr, hsd, hb⟩ := next_facts annot h
  unfold toParse endData nextAnnot
  rw [if_pos (by omega : nextRel annot > 0), hnr, hsd]
  simp only [pySlice, pySliceFrom, List.length_drop, List.length_take]
  have h1 : pyNorm annot.length ((m : Int) + (j : Int)) = m + j := by unfold pyNorm; omega
  have h2 : pyNorm annot.length (j : Int) = j := by unfold pyNorm; omega
  rw [h1, h2]
  omega

/-- C9: the recursive multi-marker extraction is well-founded — whenever
a further `@p1000` marker exists the recursive call's substring is
strictly shorter — and, for any `parse` whose output is no larger than
its input (true of any real JSON parser, `json.loads(strict=False)`
included), the number of rows written is bounded by the annotation's
length. -/
theorem c9_termination_bound (parse : Str → Option PV) (name annot : Str)
    (langs : List (Str × Str))
    (hP : ∀ s v, parse s = some v → jsize v ≤ s.length) :
    (write_translation_row parse name annot langs).1.length ≤ annot.length ∧
    (0 < nextRel annot → (nextAnnot annot).length < annot.length) := by
  refine ⟨?_, nextAnnot_lt annot⟩
  suffices H : ∀ N annot2, List.length annot2 ≤ N →
      (write_translation_row parse name annot2 langs).1.length ≤ annot2.length from
    H annot.length annot le_rfl
  intro N
  induction N using Nat.strong_induction_on with
  | _ N ih =>
    intro annot2 hlen
    unfold write_translation_row
    split
    · simp
    next rows hfr =>
      have hrb := firstRows_bound hP hfr
      have htp := length_pySlice_le annot2 (startData annot2) (endData annot2)
      split
      next hnx =>
        have hlt := nextAnnot_lt annot2 hnx
        have hrec := ih (nextAnnot annot2).length (by omega) (nextAnnot annot2) le_rfl
        have hsplit := split_bound annot2 hnx
        simp only [List.length_append]
        omega
      next hnx =>
        simp only []
        calc rows.length ≤ (toParse annot2).length := hrb
          _ ≤ annot2.length := htp

/-- C9 witness: a two-marker annotation with a parser that rejects
everything — no rows, and the recursive substring is shorter. -/
theorem c9_witness :
    (write_translation_row (fun _ => none) (str "f")
      (str "@p1000lang\x7b\x7d@p1000notes\x7b\x7d") [(str "English", str "English")]).1.length ≤
      (str "@p1000lang\x7b\x7d@p1000notes\x7b\x7d").length ∧
    (0 < nextRel (str "@p1000lang\x7b\x7d@p1000notes\x7b\x7d") →
      (nextAnnot (str "@p1000lang\x7b\x7d@p1000notes\x7b\x7d")).length <
        (str "@p1000lang\x7b\x7d@p1000notes\x7b\x7d").length) :=
  c9_termination_bound (fun _ => none) (str "f")
    (str "@p1000lang\x7b\x7d@p1000notes\x7b\x7d") [(str "English", str "English")]
    (fun s v h => by cases h)

theorem subFind_min {pat s : Str} {j : Nat} (hocc : occursAt pat s j) :
    ∃ i, subFind pat s = some i ∧ i ≤ j := by
  induction s generalizing j with
  | nil =>
    unfold occursAt at hocc
    rw [List.drop_nil] at hocc
    cases pat with
    | nil => exact ⟨0, by simp [subFind], by omega⟩
    | cons a p => simp [isPre] at hocc
  | cons c rest ih =>
    by_cases hp : isPre pat (c :: rest) = true
    · exact ⟨0, by simp [subFind, hp], by omega⟩
    · cases j with
      | zero => exact absurd hocc hp
      | succ j' =>
        have hocc' : occursAt pat rest j' := hocc
        obtain ⟨i, hi, hle⟩ := ih hocc'
        refine ⟨i + 1, ?_, by omega⟩
        rw [subFind, if_neg (by simp [hp]), hi]
        rfl

theorem subFind_least {pat s : Str} {i : Nat} (h : subFind pat s = some i) :
    ∀ j, j < i → ¬ occursAt pat s j := by
  intro j hj hocc
  obtain ⟨i', hi', hle⟩ := subFind_min hocc
  rw [h] at hi'
  cases hi'
  omega

theorem subFind_eq_of_least {pat s : Str} {i : Nat} (hocc : occursAt pat s i)
    (hmin : ∀ j, j < i → ¬ occursAt pat s j) : subFind pat s = some i := by
  obtain ⟨i', hi', hle⟩ := subFind_min hocc
  have hocc' : occursAt pat s i' := subFind_isPre hi'
  rcases Nat.lt_or_ge i' i with hlt | hge
  · exact absurd hocc' (hmin i' hlt)
  · have he : i' = i := by omega
    rw [← he]
    exact hi'

theorem subFindLast_isPre {pat s : Str} {i : Nat} (h : subFindLast pat s = some i) :
    occursAt pat s i := by
  induction s generalizing i with
  | nil =>
    unfold subFindLast at h
    by_cases hp : pat = ([] : Str)
    · rw [if_pos hp] at h
      cases h
      simp [occursAt, hp, isPre]
    · rw [if_neg hp] at h
      cases h
  | cons c rest ih =>
    rw [subFindLast] at h
    rcases hr : subFindLast pat rest with _ | i'
    · rw [hr] at h
      by_cases hp : isPre pat (c :: rest) = true
      · rw [if_pos hp] at h
        cases h
        exact hp
      · rw [if_neg hp] at h
        cases h
    · rw [hr] at h
      cases h
      exact ih hr

theorem subFindLast_max {pat s : Str} (hp : pat ≠ []) {j : Nat}
    (hocc : occursAt pat s j) : ∃ i, subFindLast pat s = some i ∧ j ≤ i := by
  induction s generalizing j with
  | nil =>
    unfold occursAt at hocc
    rw [List.drop_nil] at hocc
    cases pat with
    | nil => exact absurd rfl hp
    | cons a p => simp [isPre] at hocc
  | cons c rest ih =>
    rcases hr : subFindLast pat rest with _ | i'
    · cases j with
      | zero =>
        refine ⟨0, ?_, by omega⟩
        rw [subFindLast, hr, if_pos (by exact hocc)]
      | succ j' =>
        have hocc' : occursAt pat rest j' := hocc
        obtain ⟨i, hi, _⟩ := ih hocc'
        rw [hr] at hi
        cases hi
    · refine ⟨i' + 1, by rw [subFindLast, hr], ?_⟩
      cases j with
      | zero => omega
      | succ j' =>
        have hocc' : occursAt pat rest j' := hocc
        obtain ⟨i, hi, hle⟩ := ih hocc'
        rw [hr] at hi
        cases hi
        omega

theorem subFindLast_eq_of_greatest {pat s : Str} (hp : pat ≠ []) {i : Nat}
    (hocc : occursAt pat s i) (hmax : ∀ j, i < j → ¬ occursAt pat s j) :
    subFindLast pat s = some i := by
  obtain ⟨i', hi', hle⟩ := subFindLast_max hp hocc
  have hocc' : occursAt pat s i' := subFindLast_isPre hi'
  rcases Nat.lt_or_ge i i' with hlt | hge
  · exact absurd hocc' (hmax i' hlt)
  · have he : i' = i := by omega
    rw [← he]
    exact hi'

theorem isPre_head_eq {a b : Char} {p q s : Str} (h1 : isPre (a :: p) s = true)
    (h2 : isPre (b :: q) s = true) : a = b := by
  cases s with
  | nil => simp [isPre] at h1
  | cons c cs =>
    simp only [isPre, Bool.and_eq_true, decide_eq_true_eq] at h1 h2
    rw [h1.1, h2.1]

theorem pyNorm_natCast {n k : Nat} (h : k ≤ n) : pyNorm n (k : Int) = k := by
  unfold pyNorm
  omega

/-- C5 counterexample: on `annotC5` the marker prefix sits at index 5,
the first `{` after it at index 14, no further marker follows, and the
last `}` is at index 23 — so the claim predicts the payload substring
`annot[14:24]`; the code, whose payload start is the first `{` of the
whole annotation (index 1, before the marker), parses `{y}` instead. -/
theorem c5_counter :
    toParse annotC5 = str "\x7by\x7d" ∧
    occursAt (str "p1000") annotC5 5 ∧
    (∀ j, j < 5 → ¬ occursAt (str "p1000") annotC5 j) ∧
    occursAt (str "\x7b") annotC5 14 ∧
    (∀ j, j < 14 → 5 ≤ j → ¬ occursAt (str "\x7b") annotC5 j) ∧
    (∀ j, j < 24 → 14 < j → ¬ occursAt (str "@p1000") annotC5 j) ∧
    occursAt (str "\x7d") annotC5 23 ∧
    (∀ j, j < 24 → 23 < j → ¬ occursAt (str "\x7d") annotC5 j) ∧
    str "\x7by\x7d" ≠ pySlice annotC5 14 24 := by
  decide

/-- C5 (amended): the payload handed to the relaxed JSON parse (`toParse`,
the argument of `json.loads(..., strict=False)`) is the substring
starting at the first `{` of the processed annotation — not necessarily
after the marker prefix — and ending either at the first marker-family
prefix `@p1000` occurring strictly after that `{`, or, when no such
marker exists, just past the last `}` of the annotation. -/
theorem c5_payload_boundaries (annot : Str) (s0 : Nat)
    (h0 : occursAt (str "\x7b") annot s0)
    (h0min : ∀ j, j < s0 → ¬ occursAt (str "\x7b") annot j) :
    (∀ e, s0 < e → occursAt (str "@p1000") annot e →
      (∀ j, s0 < j → j < e → ¬ occursAt (str "@p1000") annot j) →
      toParse annot = pySlice annot (s0 : Int) (e : Int)) ∧
    ((∀ j, s0 < j → ¬ occursAt (str "@p1000") annot j) →
      ∀ p, occursAt (str "\x7d") annot p →
      (∀ j, p < j → ¬ occursAt (str "\x7d") annot j) →
      toParse annot = pySlice annot (s0 : Int) ((p : Int) + 1)) := by
  have hsf : subFind (str "\x7b") annot = some s0 := subFind_eq_of_least h0 h0min
  have hsd : startData annot = (s0 : Int) := by unfold startData pyFind; rw [hsf]; rfl
  have hs0len : s0 + 1 ≤ annot.length := by
    have := subFind_add_le hsf (by decide)
    simpa using this
  have hdrop : pySliceFrom annot (s0 : Int) = annot.drop s0 := by
    unfold pySliceFrom
    rw [pyNorm_natCast (by omega)]
  have hhead : ∀ r, isPre (str "@p1000") (annot.drop (s0 + r)) = true → r = 0 → False := by
    intro r hocc2 h0r
    subst h0r
    have h1 : isPre ('@' :: str "p1000") (annot.drop s0) = true := by
      rw [show ('@' :: str "p1000") = str "@p1000" from rfl]
      simpa using hocc2
    have h2 : isPre ('\x7b' :: ([] : Str)) (annot.drop s0) = true := by
      rw [show ('\x7b' :: ([] : Str)) = str "\x7b" from rfl]
      exact h0
    exact absurd (isPre_head_eq h1 h2) (by decide)
  constructor
  · intro e he hocc hleast
    have hkey : subFind (str "@p1000") (annot.drop s0) = some (e - s0) := by
      apply subFind_eq_of_least
      · unfold occursAt
        rw [List.drop_drop, show s0 + (e - s0) = e from by omega]
        exact hocc
      · intro r hr hocc2
        unfold occursAt at hocc2
        rw [List.drop_drop] at hocc2
        cases Nat.eq_zero_or_pos r with
        | inl h0r => exact hhead r hocc2 h0r
        | inr hpos =>
          refine hleast (s0 + r) (by omega) (by omega) ?_
          exact hocc2
    have hnr : nextRel annot = ((e - s0 : Nat) : Int) := by
      unfold nextRel pyFind
      rw [hsd, hdrop, hkey]
      rfl
    unfold toParse endData
    rw [hnr, hsd, if_pos (by exact_mod_cast (by omega : 0 < e - s0))]
    rw [show ((e - s0 : Nat) : Int) + (s0 : Int) = (e : Int) from by omega]
  · intro hnone p hpocc hpmax
    have hkey : subFind (str "@p1000") (annot.drop s0) = none := by
      rcases hk : subFind (str "@p1000") (annot.drop s0) with _ | r
      · rfl
      · exfalso
        have hocc2 : isPre (str "@p1000") ((annot.drop s0).drop r) = true :=
          subFind_isPre hk
        rw [List.drop_drop] at hocc2
        cases Nat.eq_zero_or_pos r with
        | inl h0r => exact hhead r hocc2 h0r
        | inr hpos =>
          refine hnone (s0 + r) (by omega) ?_
          exact hocc2
    have hnr : nextRel annot = -1 := by
      unfold nextRel pyFind
      rw [hsd, hdrop, hkey]
      rfl
    have hrf : pyRFind (str "\x7d") annot = (p : Int) := by
      unfold pyRFind
      rw [subFindLast_eq_of_greatest (by decide) hpocc hpmax]
      rfl
    unfold toParse endData
    rw [hnr, hsd, if_neg (by norm_num), hrf]

/-- C5 witness: a single-marker annotation — the payload runs from its
first `{` (index 10) through the last `}` (index 19). -/
theorem c5_witness :
    (∀ e, 10 < e → occursAt (str "@p1000") (str "@p1000lang\x7b\x22E\x22: \x22h\x22\x7d") e →
      (∀ j, 10 < j → j < e →
        ¬ occursAt (str "@p1000") (str "@p1000lang\x7b\x22E\x22: \x22h\x22\x7d") j) →
      toParse (str "@p1000lang\x7b\x22E\x22: \x22h\x22\x7d") =
        pySlice (str "@p1000lang\x7b\x22E\x22: \x22h\x22\x7d") ((10 : Nat) : Int) (e : Int)) ∧
    ((∀ j, 10 < j → ¬ occursAt (str "@p1000") (str "@p1000lang\x7b\x22E\x22: \x22h\x22\x7d") j) →
      ∀ p, occursAt (str "\x7d") (str "@p1000lang\x7b\x22E\x22: \x22h\x22\x7d") p →
      (∀ j, p < j → ¬ occursAt (str "\x7d") (str "@p1000lang\x7b\x22E\x22: \x22h\x22\x7d") j) →
      toParse (str "@p1000lang\x7b\x22E\x22: \x22h\x22\x7d") =
        pySlice (str "@p1000lang\x7b\x22E\x22: \x22h\x22\x7d") ((10 : Nat) : Int) ((p : Int) + 1)) :=
  c5_payload_boundaries (str "@p1000lang\x7b\x22E\x22: \x22h\x22\x7d") 10
    (by decide) (by decide)

theorem tinsert_keys (acc : List (Str × List (Str × PV))) (c lang : Str) (v : PV) :
    (tinsert acc c lang v).map Prod.fst = insKey (acc.map Prod.fst) c := by
  induction acc with
  | nil => simp [tinsert, insKey]
  | cons p rest ih =>
    obtain ⟨c0, m⟩ := p
    by_cases h : c0 = c
    · subst h
      unfold tinsert insKey
      rw [if_pos rfl]
      simp only [List.map_cons]
      rw [if_pos (List.mem_cons_self _ _)]
    · have h' : ¬ (c = c0) := fun hh => h hh.symm
      simp only [tinsert, h, if_false, List.map_cons]
      rw [ih]
      simp only [insKey, List.mem_cons, List.map_cons]
      by_cases hm : c ∈ rest.map Prod.fst
      · simp [hm, h']
      · simp [hm, h']

theorem tinsert_dGet_eq (acc : List (Str × List (Str × PV))) (c lang : Str) (v : PV) :
    dGet (tinsert acc c lang v) c = some (dSet ((dGet acc c).getD []) lang v) := by
  induction acc with
  | nil =>
    unfold tinsert dGet
    rw [if_pos rfl]
    rfl
  | cons p rest ih =>
    obtain ⟨c0, m⟩ := p
    unfold tinsert
    by_cases h : c0 = c
    · subst h
      rw [if_pos rfl]
      unfold dGet
      rw [if_pos rfl, if_pos rfl]
      rfl
    · rw [if_neg h]
      unfold dGet
      rw [if_neg h, if_neg h]
      exact ih

theorem tinsert_dGet_ne (acc : List (Str × List (Str × PV))) (c c' lang : Str)
    (v : PV) (h : c' ≠ c) :
    dGet (tinsert acc c lang v) c' = dGet acc c' := by
  have h' : ¬ (c = c') := fun hh => h hh.symm
  induction acc with
  | nil => simp [tinsert, dGet, h']
  | cons p rest ih =>
    obtain ⟨c0, m⟩ := p
    by_cases h0 : c0 = c
    · subst h0; simp [tinsert, dGet, h']
    · by_cases h1 : c0 = c'
      · subst h1
        simp [tinsert, dGet, h0, fun hh => h hh]
      · simp [tinsert, dGet, h0, h1, ih]

theorem tinsert_lookup (acc : List (Str × List (Str × PV))) (c c' lang lang' : Str)
    (v : PV) :
    lookup2 (tinsert acc c lang v) c' lang' =
      if c' = c ∧ lang' = lang then some v else lookup2 acc c' lang' := by
  by_cases hc : c' = c
  · subst hc
    by_cases hl : lang' = lang
    · subst hl
      rw [if_pos ⟨rfl, rfl⟩]
      simp only [lookup2, tinsert_dGet_eq, dGet_dSet_eq]
    · rw [if_neg (fun hh => hl hh.2)]
      simp only [lookup2, tinsert_dGet_eq, dGet_dSet_ne _ lang lang' v hl]
      cases hg : dGet acc c' with
      | none => simp [dGet]
      | some m => simp
  · rw [if_neg (fun hh => hc hh.1)]
    simp only [lookup2, tinsert_dGet_ne acc c c' lang v hc]

theorem dGet_mem {α : Type} {l : List (Str × α)} {k : Str} {v : α}
    (h : dGet l k = some v) : k ∈ l.map Prod.fst := by
  induction l with
  | nil => cases h
  | cons p rest ih =>
    obtain ⟨k0, v0⟩ := p
    by_cases hk : k0 = k
    · subst hk
      simp only [List.map_cons]
      exact List.mem_cons_self _ _
    · rw [dGet, if_neg hk] at h
      simp only [List.map_cons, List.mem_cons]
      exact Or.inr (ih h)

theorem tinsertAll_keys (lang : Str) (inner : List (Str × PV)) :
    ∀ acc, (tinsertAll acc lang inner).map Prod.fst =
      (inner.map Prod.fst).foldl insKey (acc.map Prod.fst) := by
  induction inner with
  | nil => intro acc; simp [tinsertAll]
  | cons p rest ih =>
    intro acc
    simp only [tinsertAll, List.foldl_cons, List.map_cons]
    rw [show rest.foldl (fun a q => tinsert a q.1 lang q.2) (tinsert acc p.1 lang p.2) =
        tinsertAll (tinsert acc p.1 lang p.2) lang rest from rfl]
    rw [ih (tinsert acc p.1 lang p.2), tinsert_keys]

theorem tinsertAll_lookup_other (lang lang' : Str) (hne : lang' ≠ lang)
    (inner : List (Str × PV)) :
    ∀ acc c, lookup2 (tinsertAll acc lang inner) c lang' = lookup2 acc c lang' := by
  induction inner with
  | nil => intro acc c; simp [tinsertAll]
  | cons p rest ih =>
    intro acc c
    simp only [tinsertAll, List.foldl_cons]
    rw [show rest.foldl (fun a q => tinsert a q.1 lang q.2) (tinsert acc p.1 lang p.2) =
        tinsertAll (tinsert acc p.1 lang p.2) lang rest from rfl]
    rw [ih (tinsert acc p.1 lang p.2) c, tinsert_lookup]
    rw [if_neg (fun hh => hne hh.2)]

theorem tinsertAll_lookup_same (lang : Str) (inner : List (Str × PV))
    (hnodup : (inner.map Prod.fst).Nodup) :
    ∀ acc c, lookup2 (tinsertAll acc lang inner) c lang =
      match dGet inner c with
      | some v => some v
      | none => lookup2 acc c lang := by
  induction inner with
  | nil => intro acc c; simp [tinsertAll, dGet]
  | cons p rest ih =>
    intro acc c
    obtain ⟨c0, v0⟩ := p
    simp only [List.map_cons, List.nodup_cons] at hnodup
    simp only [tinsertAll, List.foldl_cons]
    rw [show rest.foldl (fun a q => tinsert a q.1 lang q.2) (tinsert acc c0 lang v0) =
        tinsertAll (tinsert acc c0 lang v0) lang rest from rfl]
    rw [ih hnodup.2 (tinsert acc c0 lang v0) c]
    cases hg : dGet rest c with
    | some v =>
      have hc0 : c0 ≠ c := by
        intro hh
        subst hh
        exact hnodup.1 (dGet_mem hg)
      rw [dGet, if_neg hc0, hg]
    | none =>
      rw [tinsert_lookup]
      by_cases hc : c = c0
      · subst hc
        rw [if_pos ⟨rfl, rfl⟩, dGet, if_pos rfl]
      · rw [if_neg (fun hh => hc hh.1), dGet, if_neg (fun hh => hc hh.symm), hg]

theorem transformLoop_spec :
    ∀ (entries : List (Str × PV)) (acc : List (Str × List (Str × PV))),
      (∀ p ∈ entries, ∃ m, p.2 = PV.dict m ∧ (m.map Prod.fst).Nodup) →
      (entries.map Prod.fst).Nodup →
      (∀ p ∈ entries, ∀ c, lookup2 acc c p.1 = none) →
      ∃ res, transformLoop acc entries = some res ∧
        res.map Prod.fst =
          (entries.flatMap fun p => innerKeysOf p.2).foldl insKey (acc.map Prod.fst) ∧
        ∀ c lang, lookup2 res c lang =
          if (dGet entries lang).isSome then lookupT entries lang c
          else lookup2 acc c lang := by
  intro entries
  induction entries with
  | nil =>
    intro acc _ _ _
    refine ⟨acc, rfl, by simp, ?_⟩
    intro c lang
    simp [dGet, lookupT, lookup2]
  | cons p rest ih =>
    intro acc hobj hnodup hfresh
    obtain ⟨lang0, v0⟩ := p
    obtain ⟨m0, hv0, hm0nodup⟩ := hobj (lang0, v0) (List.mem_cons_self _ _)
    simp only at hv0
    subst hv0
    simp only [List.map_cons, List.nodup_cons] at hnodup
    have hfresh' : ∀ q ∈ rest, ∀ c,
        lookup2 (tinsertAll acc lang0 m0) c q.1 = none := by
      intro q hq c
      have hne : q.1 ≠ lang0 := by
        intro hh
        exact hnodup.1 (hh ▸ List.mem_map_of_mem Prod.fst hq)
      rw [tinsertAll_lookup_other lang0 q.1 hne m0 acc c]
      exact hfresh q (List.mem_cons_of_mem _ hq) c
    obtain ⟨res, heq, hkeys, hlook⟩ :=
      ih (tinsertAll acc lang0 m0)
        (fun q hq => hobj q (List.mem_cons_of_mem _ hq)) hnodup.2 hfresh'
    refine ⟨res, ?_, ?_, ?_⟩
    · rw [transformLoop]
      exact heq
    · rw [hkeys, tinsertAll_keys]
      simp only [List.flatMap_cons, List.foldl_append, innerKeysOf]
    · intro c lang
      rw [hlook c lang]
      cases hrg : dGet rest lang with
      | some v =>
        have hne : lang ≠ lang0 := by
          intro hh
          exact hnodup.1 (hh ▸ dGet_mem hrg)
        have hcons : dGet ((lang0, PV.dict m0) :: rest) lang = some v := by
          rw [dGet, if_neg (fun hh => hne hh.symm), hrg]
        rw [hcons]
        simp only [hrg, Option.isSome_some, if_true]
        unfold lookupT
        rw [hcons, hrg]
      | none =>
        by_cases hl : lang = lang0
        · subst hl
          have hcons : dGet ((lang, PV.dict m0) :: rest) lang = some (PV.dict m0) := by
            rw [dGet, if_pos rfl]
          rw [hcons]
          simp only [Option.isSome_some, if_true, Option.isSome_none,
            Bool.false_eq_true, if_false]
          have hLT : lookupT ((lang, PV.dict m0) :: rest) lang c = dGet m0 c := by
            unfold lookupT
            rw [hcons]
          rw [hLT, tinsertAll_lookup_same lang m0 hm0nodup acc c]
          cases hg : dGet m0 c with
          | some v => rfl
          | none => exact hfresh (lang, PV.dict m0) (List.mem_cons_self _ _) c
        · have hcons : dGet ((lang0, PV.dict m0) :: rest) lang = none := by
            rw [dGet, if_neg (fun hh => hl hh.symm), hrg]
          rw [hcons]
          simp only [hrg, Option.isSome_none, Bool.false_eq_true, if_false]
          exact tinsertAll_lookup_other lang0 lang hl m0 acc c

theorem transform_spec (t : List (Str × PV))
    (hobj : ∀ p ∈ t, ∃ m, p.2 = PV.dict m ∧ (m.map Prod.fst).Nodup)
    (hnodup : (t.map Prod.fst).Nodup) :
    ∃ res, transform_multi_choice_translations (PV.dict t) = some res ∧
      res.map Prod.fst = choiceList t ∧
      ∀ c lang, lookup2 res c lang = lookupT t lang c := by
  obtain ⟨res, heq, hkeys, hlook⟩ :=
    transformLoop_spec t [] hobj hnodup (by intro p hp c; simp [lookup2, dGet])
  refine ⟨res, heq, by simpa [choiceList] using hkeys, ?_⟩
  intro c lang
  rw [hlook c lang]
  cases hg : dGet t lang with
  | none => simp [lookupT, hg, lookup2, dGet]
  | some v => simp [hg]

theorem allValuesDicts_true (t : List (Str × PV)) :
    ∀ langs : List (Str × Str), (∀ q ∈ langs, ∃ m, dGet t q.2 = some (PV.dict m)) →
      allValuesDicts (PV.dict t) langs = some true := by
  intro langs
  induction langs with
  | nil => intro _; rfl
  | cons q rest ih =>
    intro h
    obtain ⟨e, native⟩ := q
    obtain ⟨m, hm⟩ := h (e, native) (List.mem_cons_self _ _)
    simp only [allValuesDicts, hm]
    exact ih (fun q hq => h q (List.mem_cons_of_mem _ hq))

theorem insKey_nodup {acc : List Str} (c : Str) (h : acc.Nodup) :
    (insKey acc c).Nodup := by
  unfold insKey
  split
  · exact h
  next hmem =>
    rw [← List.concat_eq_append]
    exact List.Nodup.concat hmem h

theorem foldl_insKey_nodup : ∀ (l acc : List Str), acc.Nodup → (l.foldl insKey acc).Nodup := by
  intro l
  induction l with
  | nil => intro acc h; exact h
  | cons c rest ih =>
    intro acc h
    simp only [List.foldl_cons]
    exact ih _ (insKey_nodup c h)

theorem choiceList_nodup (t : List (Str × PV)) : (choiceList t).Nodup :=
  foldl_insKey_nodup _ [] List.nodup_nil

theorem dGet_of_nodup_get? {α : Type} :
    ∀ (l : List (Str × α)) (k : Nat) (c : Str) (m : α),
      (l.map Prod.fst).Nodup → l.get? k = some (c, m) → dGet l c = some m := by
  intro l
  induction l with
  | nil => intro k c m _ h; simp at h
  | cons p rest ih =>
    intro k c m hnodup h
    obtain ⟨c0, m0⟩ := p
    simp only [List.map_cons, List.nodup_cons] at hnodup
    cases k with
    | zero =>
      simp only [List.get?] at h
      cases h
      rw [dGet, if_pos rfl]
    | succ k' =>
      simp only [List.get?] at h
      have hmem : c ∈ rest.map Prod.fst :=
        List.mem_map_of_mem Prod.fst (List.get?_mem h)
      have hne : c0 ≠ c := fun hh => hnodup.1 (hh ▸ hmem)
      rw [dGet, if_neg hne]
      exact ih k' c m hnodup.2 h

/-- C1 counterexample: on a multiple-choice payload shaped
`choice_key -> {language_name -> text}` — precisely the claim's shape —
the extraction does not emit one row per choice key: line 114 indexes
the payload by each requested language's native name, the key `English`
is absent, and the uncaught `KeyError` aborts with no row written. -/
theorem c1_counter :
    parseC1 (toParse annotC1) =
      some (.dict [(str "0", .dict [(str "English", .s (str "No"))])]) ∧
    write_translation_row parseC1 (str "f") annotC1 [(str "English", str "English")] =
      ([], false) ∧
    (write_translation_row parseC1 (str "f") annotC1
      [(str "English", str "English")]).1.length = 0 := by
  refine ⟨rfl, ?_, ?_⟩
  · unfold write_translation_row
    rfl
  · unfold write_translation_row
    rfl

/-- C1 (amended): when the first marker is of the answers kind and its
payload maps each language's native name to a dict of
`choice_key -> text` (with true dict keys, i.e. no duplicates), the
extraction transposes the payload and emits exactly one row per choice
key, in order of first appearance: row key `F[value=choice]`, and, for
each requested language in caller-supplied order, that choice's text in
that language or the empty string when missing. -/
theorem c1_answers_rows (parse : Str → Option PV) (name annot : Str)
    (langs : List (Str × Str)) (t : List (Str × PV))
    (hans : containsSub (str "p1000answers") (annotSeg annot) = true)
    (hparse : parse (toParse annot) = some (.dict t))
    (hnext : nextRel annot ≤ 0)
    (hobj : ∀ p ∈ t, ∃ m, p.2 = PV.dict m ∧ (m.map Prod.fst).Nodup)
    (hlang : ∀ q ∈ langs, ∃ m, dGet t q.2 = some (PV.dict m))
    (hnodup : (t.map Prod.fst).Nodup) :
    write_translation_row parse name annot langs =
      ((choiceList t).map fun c =>
        (name ++ str "[value=" ++ c ++ str "]",
         langs.map fun p => (lookupT t p.2 c).getD (.s [])), true) := by
  obtain ⟨res, htr, hkeys, hlook⟩ := transform_spec t hobj hnodup
  have hall := allValuesDicts_true t langs hlang
  have hrows : res.map (fun ci =>
        (name ++ str "[value=" ++ ci.1 ++ str "]",
         langs.map fun p => (dGet ci.2 p.2).getD (PV.s []))) =
      (choiceList t).map (fun c =>
        (name ++ str "[value=" ++ c ++ str "]",
         langs.map fun p => (lookupT t p.2 c).getD (PV.s []))) := by
    apply List.ext
    intro n
    rw [List.get?_map, List.get?_map]
    cases hres : res.get? n with
    | none =>
      have hlen : res.length = (choiceList t).length := by
        rw [← hkeys, List.length_map]
      rw [List.get?_eq_none] at hres
      have hnone : (choiceList t).get? n = none := by
        rw [List.get?_eq_none]
        omega
      rw [hnone]
      rfl
    | some cm =>
      obtain ⟨c, m⟩ := cm
      have hck : (choiceList t).get? n = some c := by
        rw [← hkeys, List.get?_map, hres]
        rfl
      rw [hck]
      simp only [Option.map_some']
      have hdg : dGet res c = some m :=
        dGet_of_nodup_get? res n c m (by rw [hkeys]; exact choiceList_nodup t) hres
      have hcell : ∀ p : Str × Str, dGet m p.2 = lookupT t p.2 c := by
        intro p
        have h3 := hlook c p.2
        unfold lookup2 at h3
        rw [hdg] at h3
        exact h3
      have hfun : (fun p : Str × Str => (dGet m p.2).getD (PV.s [])) =
          fun p : Str × Str => (lookupT t p.2 c).getD (PV.s []) :=
        funext fun p => by rw [hcell p]
      rw [hfun]
  unfold write_translation_row firstRows
  rw [hparse]
  simp only [rowCells_dict, hans, if_true, hall, htr]
  rw [dif_neg (by omega)]
  rw [hrows]

/-- C1 witness: the amended statement at a concrete two-choice payload —
rows `f[value=0]` and `f[value=1]` with the English texts `No`/`Yes`. -/
theorem c1_witness :
    write_translation_row parseC1w (str "f") annotC1w [(str "English", str "English")] =
      ((choiceList tC1w).map fun c =>
        (str "f" ++ str "[value=" ++ c ++ str "]",
         [(str "English", str "English")].map fun p =>
           (lookupT tC1w p.2 c).getD (.s [])), true) :=
  c1_answers_rows parseC1w (str "f") annotC1w [(str "English", str "English")] tC1w
    (by decide) (by rfl) (by decide)
    (by
      intro p hp
      unfold tC1w at hp
      rw [List.mem_singleton] at hp
      subst hp
      exact ⟨[(str "0", PV.s (str "No")), (str "1", PV.s (str "Yes"))], rfl, by decide⟩)
    (by
      intro q hq
      rw [List.mem_singleton] at hq
      subst hq
      exact ⟨[(str "0", PV.s (str "No")), (str "1", PV.s (str "Yes"))], rfl⟩)
    (by decide)

/-- A field dict whose id is a key of the table runs the three
slot-filling stages in order. -/
theorem applyField_dict_main (tr : List (Str × TranslatedField)) (lang : Str)
    (avail : List (Str × Str)) (rq : Bool) (d : List (Str × PV)) (f : Str)
    (tf : TranslatedField) (hid : dGet d (str "id") = some (.s f))
    (htf : dGet tr f = some tf) :
    applyField tr lang avail rq (.dict d) =
      match applyDirectLabel tf lang avail rq d with
      | none => none
      | some (d1, n1) =>
        match applyEnum tr f lang avail rq d1 with
        | none => none
        | some (d2, n2) =>
          match applyNote tr f lang avail rq d2 with
          | none => none
          | some (d3, n3) => some (.dict d3, n1 + n2 + n3) := by
  unfold applyField
  simp only [hid, htf]

theorem nep_refl (x : PV) : NonEmptyPreserved x x :=
  ⟨fun _ _ h => h, fun _ _ h => h, fun _ _ h => h, fun _ _ _ h => h⟩

theorem applyChoice_pres {tr : List (Str × TranslatedField)} {fname : Str}
    {lang : Str} {avail : List (Str × Str)} {rq : Bool} {a a' : PV} {n : Nat}
    (h : applyChoice tr fname lang avail rq a = some (a', n)) :
    ∀ t, t ≠ [] → choiceTrans a = some t → choiceTrans a' = some t := by
  intro t ht hct
  unfold applyChoice at h
  split at h
  next ch =>
    split at h
    · exact absurd h (by simp)
    next tv heq =>
      split at h
      · exfalso
        apply ht
        simp only [choiceTrans, heq, Option.some.injEq] at hct
        exact hct.symm
      · cases h
        exact hct
  all_goals exact absurd h (by simp)

theorem applyChoices_pres {tr : List (Str × TranslatedField)} {fname lang : Str}
    {avail : List (Str × Str)} {rq : Bool} :
    ∀ {ans ans' : List PV} {n : Nat},
      applyChoices tr fname lang avail rq ans = some (ans', n) →
      ans'.length = ans.length ∧
      ∀ i a a', ans.get? i = some a → ans'.get? i = some a' →
        ∀ t, t ≠ [] → choiceTrans a = some t → choiceTrans a' = some t := by
  intro ans
  induction ans with
  | nil =>
    intro ans' n h
    unfold applyChoices at h
    cases h
    exact ⟨rfl, by intro i a a' ha; simp at ha⟩
  | cons a rest ih =>
    intro ans' n h
    unfold applyChoices at h
    split at h
    · exact absurd h (by simp)
    next a0 n0 hc =>
      cases hr : applyChoices tr fname lang avail rq rest with
      | none => rw [hr] at h; exact absurd h (by simp)
      | some r =>
        obtain ⟨rest', m⟩ := r
        rw [hr] at h
        simp only [Option.map_some'] at h
        cases h
        obtain ⟨hlen, hpt⟩ := ih hr
        refine ⟨by simp [hlen], ?_⟩
        intro i x x' hx hx'
        cases i with
        | zero =>
          simp only [List.get?] at hx hx'
          cases hx
          cases hx'
          exact applyChoice_pres hc
        | succ i' =>
          simp only [List.get?] at hx hx'
          exact hpt i' x x' hx hx'

theorem enumSlot_elem {ans : List PV} {i : Nat} {x : PV} (hx : ans.get? i = some x)
    {d : List (Str × PV)} (hen : dGet d (str "enum") = some (.list ans)) :
    enumSlot (.dict d) i = choiceTrans x := by
  cases x <;> simp only [enumSlot, choiceTrans, hen, hx]

theorem enumSlot_none {ans : List PV} {i : Nat} (hx : ans.get? i = none)
    {d : List (Str × PV)} (hen : dGet d (str "enum") = some (.list ans)) :
    enumSlot (.dict d) i = none := by
  simp only [enumSlot, hen, hx]

theorem applyDirectLabel_pres {tf : TranslatedField} {lang : Str}
    {avail : List (Str × Str)} {rq : Bool} {d d1 : List (Str × PV)} {n : Nat}
    (h : applyDirectLabel tf lang avail rq d = some (d1, n)) :
    (∀ t, t ≠ [] → dGet d (str "translation") = some (PV.s t) →
      dGet d1 (str "translation") = some (PV.s t)) ∧
    (∀ t, t ≠ [] → labelSlot (.dict d) = some t → labelSlot (.dict d1) = some t) ∧
    dGet d1 (str "note") = dGet d (str "note") ∧
    dGet d1 (str "enum") = dGet d (str "enum") := by
  unfold applyDirectLabel at h
  split at h
  next heq =>
    cases hg : tf.get_translation lang avail rq with
    | none => rw [hg] at h; exact absurd h (by simp)
    | some t0 =>
      rw [hg] at h
      simp only [Option.map_some'] at h
      cases h
      refine ⟨?_, ?_, ?_, ?_⟩
      · intro t ht hdt
        rw [heq] at hdt
        exact absurd (PV.s.inj (Option.some.inj hdt)).symm ht
      · intro t ht hl
        simp only [labelSlot] at hl ⊢
        rw [dGet_dSet_ne d (str "translation") (str "label") _ (by decide)]
        exact hl
      · exact dGet_dSet_ne d (str "translation") (str "note") _ (by decide)
      · exact dGet_dSet_ne d (str "translation") (str "enum") _ (by decide)
  next =>
    split at h
    next lb hlb =>
      split at h
      next hlbt =>
        cases hg : tf.get_translation lang avail rq with
        | none => rw [hg] at h; exact absurd h (by simp)
        | some t0 =>
          rw [hg] at h
          simp only [Option.map_some'] at h
          cases h
          refine ⟨?_, ?_, ?_, ?_⟩
          · intro t ht hdt
            rw [dGet_dSet_ne d (str "label") (str "translation") _ (by decide)]
            exact hdt
          · intro t ht hl
            exfalso
            simp only [labelSlot, hlb, hlbt, Option.some.injEq] at hl
            exact ht hl.symm
          · exact dGet_dSet_ne d (str "label") (str "note") _ (by decide)
          · exact dGet_dSet_ne d (str "label") (str "enum") _ (by decide)
      next =>
        cases h
        exact ⟨fun _ _ hh => hh, fun _ _ hh => hh, rfl, rfl⟩
    next =>
      cases h
      exact ⟨fun _ _ hh => hh, fun _ _ hh => hh, rfl, rfl⟩

theorem applyEnum_pres {tr : List (Str × TranslatedField)} {fname lang : Str}
    {avail : List (Str × Str)} {rq : Bool} {d1 d2 : List (Str × PV)} {n : Nat}
    (h : applyEnum tr fname lang avail rq d1 = some (d2, n)) :
    dGet d2 (str "translation") = dGet d1 (str "translation") ∧
    dGet d2 (str "label") = dGet d1 (str "label") ∧
    dGet d2 (str "note") = dGet d1 (str "note") ∧
    (∀ i t, t ≠ [] → enumSlot (.dict d1) i = some t → enumSlot (.dict d2) i = some t) := by
  unfold applyEnum at h
  split at h
  next ans hen =>
    split at h
    · exact absurd h (by simp)
    next ans' m hch =>
      cases h
      obtain ⟨hlen, hpt⟩ := applyChoices_pres hch
      refine ⟨dGet_dSet_ne _ _ _ _ (by decide), dGet_dSet_ne _ _ _ _ (by decide),
        dGet_dSet_ne _ _ _ _ (by decide), ?_⟩
      intro i t ht hes
      cases ha : ans.get? i with
      | none => rw [enumSlot_none ha hen] at hes; cases hes
      | some x =>
        rw [enumSlot_elem ha hen] at hes
        cases hb : ans'.get? i with
        | none =>
          exfalso
          rw [List.get?_eq_none] at hb
          have h2 : ans.get? i = none := by
            rw [List.get?_eq_none]
            omega
          rw [h2] at ha
          cases ha
        | some x' =>
          have hct' := hpt i x x' ha hb t ht hes
          rw [enumSlot_elem hb (dGet_dSet_eq d1 (str "enum") (.list ans'))]
          exact hct'
  next =>
    cases h
    exact ⟨rfl, rfl, rfl, fun _ _ _ hh => hh⟩

theorem applyNote_pres {tr : List (Str × TranslatedField)} {fname lang : Str}
    {avail : List (Str × Str)} {rq : Bool} {d2 d3 : List (Str × PV)} {n : Nat}
    (h : applyNote tr fname lang avail rq d2 = some (d3, n)) :
    dGet d3 (str "translation") = dGet d2 (str "translation") ∧
    dGet d3 (str "label") = dGet d2 (str "label") ∧
    dGet d3 (str "enum") = dGet d2 (str "enum") ∧
    (∀ t, t ≠ [] → noteSlot (.dict d2) = some t → noteSlot (.dict d3) = some t) := by
  unfold applyNote at h
  split at h
  · cases h
    exact ⟨rfl, rfl, rfl, fun _ _ hh => hh⟩
  next nv hnv =>
    split at h
    · exact absurd h (by simp)
    · cases h
      exact ⟨rfl, rfl, rfl, fun _ _ hh => hh⟩
    · split at h
      next nb =>
        split at h
        next hnbt =>
          simp only [] at h
          split at h
          · cases h
            exact ⟨rfl, rfl, rfl, fun _ _ hh => hh⟩
          next tf htf =>
            cases hg : tf.get_translation lang avail rq with
            | none => rw [hg] at h; exact absurd h (by simp)
            | some t0 =>
              rw [hg] at h
              simp only [Option.map_some'] at h
              cases h
              refine ⟨dGet_dSet_ne _ _ _ _ (by decide), dGet_dSet_ne _ _ _ _ (by decide),
                dGet_dSet_ne _ _ _ _ (by decide), ?_⟩
              intro t ht hns
              exfalso
              simp only [noteSlot, hnv, hnbt, Option.some.injEq] at hns
              exact ht hns.symm
        next =>
          cases h
          exact ⟨rfl, rfl, rfl, fun _ _ hh => hh⟩
      next =>
        exact absurd h (by simp)

theorem directSlot_iff (d : List (Str × PV)) (t : Str) :
    directSlot (.dict d) = some t ↔ dGet d (str "translation") = some (PV.s t) := by
  cases hg : dGet d (str "translation") with
  | none => simp [directSlot, hg]
  | some v => cases v <;> simp [directSlot, hg]

theorem labelSlot_congr {d1 d2 : List (Str × PV)}
    (h : dGet d2 (str "label") = dGet d1 (str "label")) :
    labelSlot (.dict d2) = labelSlot (.dict d1) := by
  simp only [labelSlot]
  rw [h]

theorem noteSlot_congr {d1 d2 : List (Str × PV)}
    (h : dGet d2 (str "note") = dGet d1 (str "note")) :
    noteSlot (.dict d2) = noteSlot (.dict d1) := by
  simp only [noteSlot]
  rw [h]

theorem enumSlot_congr {d1 d2 : List (Str × PV)}
    (h : dGet d2 (str "enum") = dGet d1 (str "enum")) (i : Nat) :
    enumSlot (.dict d2) i = enumSlot (.dict d1) i := by
  simp only [enumSlot]
  rw [h]

theorem applyField_pres {tr : List (Str × TranslatedField)} {lang : Str}
    {avail : List (Str × Str)} {rq : Bool} {fld fld' : PV} {n : Nat}
    (h : applyField tr lang avail rq fld = some (fld', n)) :
    NonEmptyPreserved fld fld' := by
  unfold applyField at h
  split at h
  next d =>
    split at h
    · cases h
      exact nep_refl _
    next idv hidv =>
      split at h
      next fname =>
        split at h
        · cases h
          exact nep_refl _
        next tf htf =>
          split at h
          · exact absurd h (by simp)
          next d1 n1 h1 =>
            split at h
            · exact absurd h (by simp)
            next d2 n2 h2 =>
              split at h
              · exact absurd h (by simp)
              next d3 n3 h3 =>
                cases h
                obtain ⟨p1a, p1b, p1c, p1d⟩ := applyDirectLabel_pres h1
                obtain ⟨p2a, p2b, p2c, p2d⟩ := applyEnum_pres h2
                obtain ⟨p3a, p3b, p3c, p3d⟩ := applyNote_pres h3
                refine ⟨?_, ?_, ?_, ?_⟩
                · intro t ht hd
                  rw [directSlot_iff] at hd ⊢
                  rw [p3a, p2a]
                  exact p1a t ht hd
                · intro t ht hl
                  rw [labelSlot_congr p3b, labelSlot_congr p2b]
                  exact p1b t ht hl
                · intro t ht hn
                  apply p3d t ht
                  rw [noteSlot_congr p2c, noteSlot_congr p1c]
                  exact hn
                · intro i t ht he
                  rw [enumSlot_congr p3c]
                  apply p2d i t ht
                  rw [enumSlot_congr p1d]
                  exact he
      · exact absurd h (by simp)
      · exact absurd h (by simp)
      all_goals (cases h; exact nep_refl _)
  next l =>
    split at h
    · exact absurd h (by simp)
    · cases h
      exact nep_refl _
  next t =>
    split at h
    · exact absurd h (by simp)
    · cases h
      exact nep_refl _
  all_goals exact absurd h (by simp)

theorem applyCat_pres {tr : List (Str × TranslatedField)} {lang : Str}
    {avail : List (Str × Str)} {rq : Bool} :
    ∀ {l l' : List PV} {n : Nat}, applyCat tr lang avail rq l = some (l', n) →
      l'.length = l.length ∧
      ∀ j f f', l.get? j = some f → l'.get? j = some f' → NonEmptyPreserved f f' := by
  intro l
  induction l with
  | nil =>
    intro l' n h
    unfold applyCat at h
    cases h
    exact ⟨rfl, by intro j f f' hf; simp at hf⟩
  | cons f rest ih =>
    intro l' n h
    unfold applyCat at h
    split at h
    · exact absurd h (by simp)
    next f0 n0 hf0 =>
      cases hr : applyCat tr lang avail rq rest with
      | none => rw [hr] at h; exact absurd h (by simp)
      | some r =>
        obtain ⟨rest', m⟩ := r
        rw [hr] at h
        simp only [Option.map_some'] at h
        cases h
        obtain ⟨hlen, hpt⟩ := ih hr
        refine ⟨by simp [hlen], ?_⟩
        intro j x x' hx hx'
        cases j with
        | zero =>
          simp only [List.get?] at hx hx'
          cases hx
          cases hx'
          exact applyField_pres hf0
        | succ j' =>
          simp only [List.get?] at hx hx'
          exact hpt j' x x' hx hx'

theorem applyChoice_fill {tr : List (Str × TranslatedField)} {fname lang : Str}
    {avail : List (Str × Str)} {rq : Bool} {ch : List (Str × PV)} {a' : PV} {n : Nat}
    {idv : PV} {tf : TranslatedField}
    (h : applyChoice tr fname lang avail rq (.dict ch) = some (a', n))
    (hempty : dGet ch (str "translation") = some (.s []))
    (hcid : dGet ch (str "id") = some idv)
    (hkey : dGet tr (fname ++ str "[value=" ++ pyStr idv ++ str "]") = some tf) :
    choiceTrans a' = tf.get_translation lang avail rq := by
  unfold applyChoice at h
  cases hg : tf.get_translation lang avail rq with
  | none =>
    simp only [hempty, hcid, hkey, hg, Option.map_none'] at h
    exact absurd h (by simp)
  | some t =>
    simp only [hempty, hcid, hkey, hg, Option.map_some'] at h
    cases h
    simp only [choiceTrans, dGet_dSet_eq]

theorem applyChoices_fill {tr : List (Str × TranslatedField)} {fname lang : Str}
    {avail : List (Str × Str)} {rq : Bool} :
    ∀ {ans ans' : List PV} {n : Nat},
      applyChoices tr fname lang avail rq ans = some (ans', n) →
      ∀ k ch idv tf, ans.get? k = some (.dict ch) →
        dGet ch (str "translation") = some (.s []) →
        dGet ch (str "id") = some idv →
        dGet tr (fname ++ str "[value=" ++ pyStr idv ++ str "]") = some tf →
        ∃ a', ans'.get? k = some a' ∧
          choiceTrans a' = tf.get_translation lang avail rq := by
  intro ans
  induction ans with
  | nil =>
    intro ans' n h k ch idv tf hk
    simp at hk
  | cons a rest ih =>
    intro ans' n h k ch idv tf hk hempty hcid hkey
    unfold applyChoices at h
    split at h
    · exact absurd h (by simp)
    next a0 n0 hc =>
      cases hr : applyChoices tr fname lang avail rq rest with
      | none => rw [hr] at h; exact absurd h (by simp)
      | some r =>
        obtain ⟨rest', m⟩ := r
        rw [hr] at h
        simp only [Option.map_some'] at h
        cases h
        cases k with
        | zero =>
          simp only [List.get?] at hk
          cases hk
          exact ⟨a0, rfl, applyChoice_fill hc hempty hcid hkey⟩
        | succ k' =>
          simp only [List.get?] at hk
          obtain ⟨a', ha', hct⟩ := ih hr k' ch idv tf hk hempty hcid hkey
          exact ⟨a', by simp only [List.get?]; exact ha', hct⟩

theorem applyField_fill {tr : List (Str × TranslatedField)} {lang : Str}
    {avail : List (Str × Str)} {rq : Bool} {d : List (Str × PV)} {fld' : PV} {n : Nat}
    {fname : Str} {tf0 : TranslatedField}
    (h : applyField tr lang avail rq (.dict d) = some (fld', n))
    (hid : dGet d (str "id") = some (.s fname))
    (htf0 : dGet tr fname = some tf0) :
    ∀ k ans ch idv tf, dGet d (str "enum") = some (.list ans) →
      ans.get? k = some (.dict ch) →
      dGet ch (str "translation") = some (.s []) →
      dGet ch (str "id") = some idv →
      dGet tr (fname ++ str "[value=" ++ pyStr idv ++ str "]") = some tf →
      enumSlot fld' k = tf.get_translation lang avail rq := by
  intro k ans ch idv tf hen hik hempty hcid hkey
  rw [applyField_dict_main tr lang avail rq d fname tf0 hid htf0] at h
  split at h
  · exact absurd h (by simp)
  next d1 n1 h1 =>
    split at h
    · exact absurd h (by simp)
    next d2 n2 h2 =>
      split at h
      · exact absurd h (by simp)
      next d3 n3 h3 =>
        cases h
        obtain ⟨_, _, _, h1e⟩ := applyDirectLabel_pres h1
        unfold applyEnum at h2
        rw [h1e] at h2
        simp only [hen] at h2
        split at h2
        · exact absurd h2 (by simp)
        next ans' m hch =>
          cases h2
          obtain ⟨a', ha', hct⟩ := applyChoices_fill hch k ch idv tf hik hempty hcid hkey
          obtain ⟨_, _, h3e, _⟩ := applyNote_pres h3
          have hd3 : dGet d3 (str "enum") = some (.list ans') := by
            rw [h3e]
            exact dGet_dSet_eq d1 (str "enum") (.list ans')
          rw [enumSlot_elem ha' hd3]
          exact hct

theorem applyCat_fill {tr : List (Str × TranslatedField)} {lang : Str}
    {avail : List (Str × Str)} {rq : Bool} :
    ∀ {l l' : List PV} {n : Nat}, applyCat tr lang avail rq l = some (l', n) →
      ∀ j f, l.get? j = some f →
        ∃ f' m, l'.get? j = some f' ∧
          applyField tr lang avail rq f = some (f', m) := by
  intro l
  induction l with
  | nil =>
    intro l' n h j f hf
    simp at hf
  | cons f0 rest ih =>
    intro l' n h j f hf
    unfold applyCat at h
    split at h
    · exact absurd h (by simp)
    next f1 n1 hf1 =>
      cases hr : applyCat tr lang avail rq rest with
      | none => rw [hr] at h; exact absurd h (by simp)
      | some r =>
        obtain ⟨rest', m⟩ := r
        rw [hr] at h
        simp only [Option.map_some'] at h
        cases h
        cases j with
        | zero =>
          simp only [List.get?] at hf
          cases hf
          exact ⟨f1, n1, rfl, hf1⟩
        | succ j' =>
          simp only [List.get?] at hf
          obtain ⟨f', m', hg, ha⟩ := ih hr j' f hf
          exact ⟨f', m', by simp only [List.get?]; exact hg, ha⟩

/-- C3 (amended): on every document on which the filler succeeds, every
field node carrying an id that is itself a key of the table — the `enum`
block is nested under that guard — has each enum choice whose
translation slot is the empty string filled from the table entry at
`id + "[value=" + str(choice id) + "]"` whenever that key is present,
independently of (not mutually exclusive with) the state of the direct
and label translation slots. -/
theorem c3_enum_fill (tr : List (Str × TranslatedField))
    (doc : List (Str × PV)) (lang : Str) (avail : List (Str × Str)) (rq : Bool)
    (doc' : List (Str × PV)) (n : Nat)
    (h : apply_translations tr doc lang avail rq = some (doc', n)) :
    ∀ i p p', doc.get? i = some p → doc'.get? i = some p' →
      ∀ j d, (fieldsOf p.2).get? j = some (.dict d) →
      ∀ fname tf0, dGet d (str "id") = some (.s fname) →
        dGet tr fname = some tf0 →
      ∀ k ans ch idv tf, dGet d (str "enum") = some (.list ans) →
        ans.get? k = some (.dict ch) →
        dGet ch (str "translation") = some (.s []) →
        dGet ch (str "id") = some idv →
        dGet tr (fname ++ str "[value=" ++ pyStr idv ++ str "]") = some tf →
        ∃ f', (fieldsOf p'.2).get? j = some f' ∧
          enumSlot f' k = tf.get_translation lang avail rq := by
  induction doc generalizing doc' n with
  | nil =>
    unfold apply_translations at h
    cases h
    intro i p p' hp
    simp at hp
  | cons e rest ih =>
    obtain ⟨cat, v⟩ := e
    unfold apply_translations at h
    split at h
    next l =>
      split at h
      · split at h
        · exact absurd h (by simp)
        next l' m hcat =>
          cases hrest : apply_translations tr rest lang avail rq with
          | none => rw [hrest] at h; exact absurd h (by simp)
          | some r =>
            obtain ⟨rest', kk⟩ := r
            rw [hrest] at h
            simp only [Option.map_some'] at h
            cases h
            intro i p p' hp hp'
            cases i with
            | zero =>
              simp only [List.get?] at hp hp'
              cases hp
              cases hp'
              intro j d hj fname tf0 hid htf0 k ans ch idv tf hen hik hempty hcid hkey
              simp only [fieldsOf] at hj ⊢
              obtain ⟨f', m', hg, ha⟩ := applyCat_fill hcat j (.dict d) hj
              exact ⟨f', hg,
                applyField_fill ha hid htf0 k ans ch idv tf hen hik hempty hcid hkey⟩
            | succ i' =>
              simp only [List.get?] at hp hp'
              exact ih _ _ hrest i' p p' hp hp'
      next hlen =>
        cases hrest : apply_translations tr rest lang avail rq with
        | none => rw [hrest] at h; exact absurd h (by simp)
        | some r =>
          obtain ⟨rest', kk⟩ := r
          rw [hrest] at h
          simp only [Option.map_some'] at h
          cases h
          intro i p p' hp hp'
          cases i with
          | zero =>
            simp only [List.get?] at hp hp'
            cases hp
            cases hp'
            intro j d hj
            exfalso
            have hl : l = [] := List.length_eq_zero.mp (by omega)
            subst hl
            simp only [fieldsOf] at hj
            simp at hj
          | succ i' =>
            simp only [List.get?] at hp hp'
            exact ih _ _ hrest i' p p' hp hp'
    next hv =>
      cases hrest : apply_translations tr rest lang avail rq with
      | none => rw [hrest] at h; exact absurd h (by simp)
      | some r =>
        obtain ⟨rest', kk⟩ := r
        rw [hrest] at h
        simp only [Option.map_some'] at h
        cases h
        intro i p p' hp hp'
        cases i with
        | zero =>
          simp only [List.get?] at hp hp'
          cases hp
          cases hp'
          intro j d hj
          exfalso
          cases v with
          | list l => exact hv l rfl
          | _ => simp [fieldsOf] at hj
        | succ i' =>
          simp only [List.get?] at hp hp'
          exact ih _ _ hrest i' p p' hp hp'

/-- C3 witness: one category, one field `f` whose direct slot already
holds `X`, one empty choice with id `0`; the table holds both `f` and
`f[value=0]` (English `Sí`), and after the filler the choice slot holds
the `f[value=0]` translation — `Sí`. -/
theorem c3_witness :
    (∃ f', (fieldsOf (PV.list [PV.dict fldC3f])).get? 0 = some f' ∧
      enumSlot f' 0 = TranslatedField.get_translation tfC3 (str "English") [] false) ∧
    TranslatedField.get_translation tfC3 (str "English") [] false = some (str "Sí") :=
  ⟨c3_enum_fill tblC3 docC3 (str "English") [] false docC3f 1 (by rfl)
    0 (str "c", PV.list [PV.dict fldC3]) (str "c", PV.list [PV.dict fldC3f]) rfl rfl
    0 fldC3 rfl (str "f") tfC3f rfl rfl
    0 [PV.dict chC3] chC3 (PV.s (str "0")) tfC3 rfl rfl rfl rfl rfl, rfl⟩

/-- C4 (amended): the filler never overwrites a translation slot that
already holds a non-empty string — every such slot (direct, label, note,
or any enum choice) holds the same string in the output document.
Re-running is however not always a no-op: filling a direct slot in a
first run can expose an empty `label.translation` slot to the `elif`
chain, which a second run then fills (see the counterexample). -/
theorem c4_no_overwrite (tr : List (Str × TranslatedField))
    (doc : List (Str × PV)) (lang : Str) (avail : List (Str × Str)) (rq : Bool)
    (doc' : List (Str × PV)) (n : Nat)
    (h : apply_translations tr doc lang avail rq = some (doc', n)) :
    doc'.length = doc.length ∧
    ∀ i p p', doc.get? i = some p → doc'.get? i = some p' →
      p'.1 = p.1 ∧ (fieldsOf p'.2).length = (fieldsOf p.2).length ∧
      ∀ j f f', (fieldsOf p.2).get? j = some f → (fieldsOf p'.2).get? j = some f' →
        NonEmptyPreserved f f' := by
  induction doc generalizing doc' n with
  | nil =>
    unfold apply_translations at h
    cases h
    exact ⟨rfl, by intro i p p' hp; simp at hp⟩
  | cons e rest ih =>
    obtain ⟨cat, v⟩ := e
    unfold apply_translations at h
    split at h
    next l =>
      split at h
      · split at h
        · exact absurd h (by simp)
        next l' m hcat =>
          cases hrest : apply_translations tr rest lang avail rq with
          | none => rw [hrest] at h; exact absurd h (by simp)
          | some r =>
            obtain ⟨rest', k⟩ := r
            rw [hrest] at h
            simp only [Option.map_some'] at h
            cases h
            obtain ⟨hl1, hpt1⟩ := applyCat_pres hcat
            obtain ⟨hlen2, hpt2⟩ := ih _ _ hrest
            refine ⟨by simp [hlen2], ?_⟩
            intro i p p' hp hp'
            cases i with
            | zero =>
              simp only [List.get?] at hp hp'
              cases hp
              cases hp'
              refine ⟨rfl, by simp [fieldsOf, hl1], ?_⟩
              intro j f f' hf hf'
              simp only [fieldsOf] at hf hf'
              exact hpt1 j f f' hf hf'
            | succ i' =>
              simp only [List.get?] at hp hp'
              exact hpt2 i' p p' hp hp'
      · cases hrest : apply_translations tr rest lang avail rq with
        | none => rw [hrest] at h; exact absurd h (by simp)
        | some r =>
          obtain ⟨rest', k⟩ := r
          rw [hrest] at h
          simp only [Option.map_some'] at h
          cases h
          obtain ⟨hlen2, hpt2⟩ := ih _ _ hrest
          refine ⟨by simp [hlen2], ?_⟩
          intro i p p' hp hp'
          cases i with
          | zero =>
            simp only [List.get?] at hp hp'
            cases hp
            cases hp'
            refine ⟨rfl, rfl, ?_⟩
            intro j f f' hf hf'
            rw [hf] at hf'
            cases hf'
            exact nep_refl _
          | succ i' =>
            simp only [List.get?] at hp hp'
            exact hpt2 i' p p' hp hp'
    next =>
      cases hrest : apply_translations tr rest lang avail rq with
      | none => rw [hrest] at h; exact absurd h (by simp)
      | some r =>
        obtain ⟨rest', k⟩ := r
        rw [hrest] at h
        simp only [Option.map_some'] at h
        cases h
        obtain ⟨hlen2, hpt2⟩ := ih _ _ hrest
        refine ⟨by simp [hlen2], ?_⟩
        intro i p p' hp hp'
        cases i with
        | zero =>
          simp only [List.get?] at hp hp'
          cases hp
          cases hp'
          refine ⟨rfl, rfl, ?_⟩
          intro j f f' hf hf'
          rw [hf] at hf'
          cases hf'
          exact nep_refl _
        | succ i' =>
          simp only [List.get?] at hp hp'
          exact hpt2 i' p p' hp hp'

/-- C4 witness: the never-overwrite statement on the concrete run that
fills `fldBoth`'s direct slot. -/
theorem c4_witness :
    ([(str "c", PV.list [fldBoth1])] : List (Str × PV)).length =
      ([(str "c", PV.list [fldBoth])] : List (Str × PV)).length ∧
    ∀ i p p', ([(str "c", PV.list [fldBoth])] : List (Str × PV)).get? i = some p →
      ([(str "c", PV.list [fldBoth1])] : List (Str × PV)).get? i = some p' →
      p'.1 = p.1 ∧ (fieldsOf p'.2).length = (fieldsOf p.2).length ∧
      ∀ j f f', (fieldsOf p.2).get? j = some f → (fieldsOf p'.2).get? j = some f' →
        NonEmptyPreserved f f' :=
  c4_no_overwrite tblF [(str "c", PV.list [fldBoth])] (str "English") [] false
    [(str "c", PV.list [fldBoth1])] 1 (by rfl)

